import Mathlib

/-!
Verification development for the `Transformer_Propagator/transformer.ipynb`
notebook: a sequence model (two `QuantumTransformer` definitions), a dataset
wrapper (`QuantumWaveDataset`), a training loop, and an autoregressive
propagator (`propagate_wavefunction`).

Tensors are embedded as dynamically ranked nested lists (`Tens`), mirroring
the dynamic typing of the source: every shape error of the source (failed
`torch.stack`, failed `view`, failed tuple unpacking of `.shape`, failed
broadcast against the positional-encoding slice) is an `Option.none` of the
embedding.  The attention stack (`nn.TransformerEncoder`) is library code and
is treated, as the design document directs, as an opaque per-sequence
transform; the embedding keeps precisely its axis semantics: the transform is
applied along axis 0 of its input when the layer is constructed with the
default `batch_first=False`, and along axis 1 when `batch_first=True`.
Scalar arithmetic is over an arbitrary field, with the transcendental
functions used by the positional-encoding table passed as parameters; the
theorems about actual sine/cosine values instantiate them with the real ones.
-/

/-- Dynamically ranked tensor: a scalar or an array of subtensors.  This is
the embedding of a torch tensor value; rectangularity is not enforced by the
type (the source language is dynamically typed) but is tracked by the
`hasShape` predicate below. -/
inductive Tens (α : Type) where
  | scalar : α → Tens α
  | arr : List (Tens α) → Tens α

mutual

/-- Decides whether a tensor is rectangular with the given shape. -/
def hasShape {α : Type} : Tens α → List Nat → Bool
  | .scalar _, ns => ns.isEmpty
  | .arr ts, ns =>
    match ns with
    | [] => false
    | n :: ns' => ts.length == n && hasShapeList ts ns'

/-- All members of the list have the given shape. -/
def hasShapeList {α : Type} : List (Tens α) → List Nat → Bool
  | [], _ => true
  | t :: ts, ns => hasShape t ns && hasShapeList ts ns

end

mutual

/-- Row-major flattening of a tensor to its list of scalar entries (the
order in which torch stores a contiguous tensor). -/
def toFlat {α : Type} : Tens α → List α
  | .scalar a => [a]
  | .arr ts => toFlatList ts

/-- Row-major flattening of a list of tensors. -/
def toFlatList {α : Type} : List (Tens α) → List α
  | [] => []
  | t :: ts => toFlat t ++ toFlatList ts

end

/-- Shape read off a tensor along its first path, the way torch would report
`.shape` (for rectangular tensors of positive dimensions this agrees with
`hasShape`). -/
def shapeOf {α : Type} : Tens α → List Nat
  | .scalar _ => []
  | .arr [] => [0]
  | .arr (t :: ts) => (ts.length + 1) :: shapeOf t

/-- Consumes a prefix of the scalar stream, building one tensor of shape
`ns`; returns the tensor and the unconsumed remainder of the stream. -/
def build {α : Type} : List Nat → List α → Option (Tens α × List α)
  | [], xs =>
    match xs with
    | a :: rest => some (.scalar a, rest)
    | [] => none
  | n :: ns, xs =>
    match buildList (build ns) n xs with
    | some (ts, rest) => some (.arr ts, rest)
    | none => none
where
  /-- Builds `n` successive subtensors from the stream. -/
  buildList (b1 : List α → Option (Tens α × List α)) :
      Nat → List α → Option (List (Tens α) × List α)
    | 0, xs => some ([], xs)
    | n + 1, xs =>
      match b1 xs with
      | some (t, rest) =>
        match buildList b1 n rest with
        | some (ts, rest') => some (t :: ts, rest')
        | none => none
      | none => none

/-- Embedding of `torch.Tensor.view`: reinterpret the row-major entries with
a new shape; fails (as torch does) unless the element count matches the new
shape exactly. -/
def reshape {α : Type} (t : Tens α) (ns : List Nat) : Option (Tens α) :=
  match build ns (toFlat t) with
  | some (t', []) => some t'
  | _ => none

mutual

/-- Embedding of `torch.stack((a, b, c), dim=-1)`: stacks three tensors of
identical shape along a new last axis; fails (as `torch.stack` does) when the
shapes disagree. -/
def stack3 {α : Type} : Tens α → Tens α → Tens α → Option (Tens α)
  | .scalar a, .scalar b, .scalar c => some (.arr [.scalar a, .scalar b, .scalar c])
  | .arr as, .arr bs, .arr cs =>
    match stack3List as bs cs with
    | some ts => some (.arr ts)
    | none => none
  | _, _, _ => none

/-- Pointwise `stack3` over three lists of equal length. -/
def stack3List {α : Type} : List (Tens α) → List (Tens α) → List (Tens α) →
    Option (List (Tens α))
  | [], [], [] => some []
  | a :: as, b :: bs, c :: cs =>
    match stack3 a b c with
    | some t =>
      match stack3List as bs cs with
      | some ts => some (t :: ts)
      | none => none
    | none => none
  | _, _, _ => none

end

/-- Extracts the underlying values of a list of rank-0 tensors; `none` if any
member is not a scalar. -/
def asScalars {α : Type} : List (Tens α) → Option (List α)
  | [] => some []
  | .scalar a :: ts => (asScalars ts).map (a :: ·)
  | .arr _ :: _ => none

mutual

/-- Applies a function to every last-axis vector of a tensor: the embedding
of the torch operations that act on the trailing dimension only, such as
`nn.Linear` (which maps each trailing `in_features`-vector through the same
affine map). -/
def mapVecs {α : Type} (f : List α → List α) : Tens α → Tens α
  | .scalar a => .scalar a
  | .arr [] => .arr []
  | .arr ts =>
    match asScalars ts with
    | some vs => .arr ((f vs).map .scalar)
    | none => .arr (mapVecsList f ts)

/-- Pointwise `mapVecs` over a list of tensors. -/
def mapVecsList {α : Type} (f : List α → List α) : List (Tens α) → List (Tens α)
  | [] => []
  | t :: ts => mapVecs f t :: mapVecsList f ts

end

mutual

/-- Embedding of indexing the last axis, `x[..., k]`: picks the `k`-th entry
of every last-axis vector, dropping that axis; fails when the index is out of
range. -/
def indexLast {α : Type} (k : Nat) : Tens α → Option (Tens α)
  | .scalar _ => none
  | .arr ts =>
    match asScalars ts with
    | some vs => (vs.get? k).map .scalar
    | none =>
      match indexLastList k ts with
      | some ts' => some (.arr ts')
      | none => none

/-- Pointwise `indexLast` over a list of tensors. -/
def indexLastList {α : Type} (k : Nat) : List (Tens α) → Option (List (Tens α))
  | [] => some []
  | t :: ts =>
    match indexLast k t with
    | some t' =>
      match indexLastList k ts with
      | some ts' => some (t' :: ts')
      | none => none
    | none => none

end

/-- Embedding of indexing the first axis, `x[i]`; fails out of range, as the
source would with an `IndexError`. -/
def index0 {α : Type} : Tens α → Nat → Option (Tens α)
  | .scalar _, _ => none
  | .arr ts, i => ts.get? i

/-- Dot product; the lists are zipped positionally, as the underlying matmul
kernel consumes equal-length operands. -/
def dotProd {α : Type} [Field α] (r x : List α) : α :=
  (List.zipWith (· * ·) r x).sum

/-- Embedding of `nn.Linear(inF, outF)` applied to one trailing vector:
`y j = (W j) · x + b j`, with `W` given by rows. -/
def linearApp {α : Type} [Field α] (w : List (List α)) (b : List α) (x : List α) :
    List α :=
  List.zipWith (fun row c => dotProd row x + c) w b

/-- Transpose of a list-of-rows matrix into `w` columns: column `j` collects
the `j`-th entry of every row. -/
def transposeN {α : Type} (w : Nat) (m : List (List α)) : List (List α) :=
  (List.range w).map (fun j => m.filterMap (fun r => r.get? j))

/-- Extracts a rank-1 tensor as its vector of scalars. -/
def vecOf {α : Type} : Tens α → Option (List α)
  | .arr ts => asScalars ts
  | .scalar _ => none

/-- Extracts every member of a list as a vector of scalars. -/
def vecList {α : Type} : List (Tens α) → Option (List (List α))
  | [] => some []
  | t :: ts =>
    match vecOf t, vecList ts with
    | some v, some vs => some (v :: vs)
    | _, _ => none

/-- Extracts a rank-2 tensor as a list of vectors. -/
def mat2Of {α : Type} : Tens α → Option (List (List α))
  | .arr ts => vecList ts
  | .scalar _ => none

/-- Extracts every member of a list as a matrix. -/
def matList {α : Type} : List (Tens α) → Option (List (List (List α)))
  | [] => some []
  | t :: ts =>
    match mat2Of t, matList ts with
    | some m, some ms => some (m :: ms)
    | _, _ => none

/-- Extracts a rank-3 tensor as a list of matrices. -/
def mat3Of {α : Type} : Tens α → Option (List (List (List α)))
  | .arr ts => matList ts
  | .scalar _ => none

/-- Rebuilds a rank-1 tensor from a vector. -/
def ofVec {α : Type} (v : List α) : Tens α := .arr (v.map .scalar)

/-- Rebuilds a rank-2 tensor from a list of vectors. -/
def ofMat2 {α : Type} (m : List (List α)) : Tens α := .arr (m.map ofVec)

/-- Rebuilds a rank-3 tensor from a list of matrices. -/
def ofMat3 {α : Type} (m : List (List (List α))) : Tens α := .arr (m.map ofMat2)

/-- Embedding of `nn.TransformerEncoder` applied to a rank-3 input, with the
attention-stack internals opaque: `mix` is the per-sequence transform (the
whole stack of self-attention plus feedforward layers, applied to one
sequence of `dModel`-vectors).  The essential, non-opaque semantics kept here
is the axis convention: torch applies the per-sequence transform along axis 0
of the input when the encoder layer is built with the default
`batch_first=False`, treating axis 1 as the batch axis, and along axis 1 when
`batch_first=True`, treating axis 0 as the batch axis.  Sequences sharing a
batch index are processed independently of one another. -/
def encoderApply {α : Type} (batchFirst : Bool)
    (mix : List (List α) → List (List α)) (x : Tens α) : Option (Tens α) :=
  match mat3Of x with
  | some m =>
    if batchFirst then
      some (ofMat3 (m.map mix))
    else
      some (ofMat3 (transposeN m.length ((transposeN (m.headD []).length m).map mix)))
  | none => none

/-- Adds table rows to token vectors positionally; fails when a width
disagrees (a failed broadcast of the last axis) or when the table slice runs
out before the tokens do. -/
def peAddRow {α : Type} [Field α] : List (List α) → List (List α) →
    Option (List (List α))
  | [], _ => some []
  | t :: ts, r :: rs =>
    if t.length = r.length then
      match peAddRow ts rs with
      | some us => some (List.zipWith (· + ·) t r :: us)
      | none => none
    else none
  | _ :: _, [] => none

/-- Adds the table slice to every batch element's token list; fails once the
token count exceeds the table length (the slice is then too short to
broadcast). -/
def peAddBatch {α : Type} [Field α] (pe : List (List α)) :
    List (List (List α)) → Option (List (List (List α)))
  | [] => some []
  | toks :: rest =>
    if toks.length ≤ pe.length then
      match peAddRow toks (pe.take toks.length), peAddBatch pe rest with
      | some ts, some ms => some (ts :: ms)
      | _, _ => none
    else none

/-- Embedding of `x + self.positional_encoding[:, :x.shape[1], :]` (and of
`PositionalEncoding.forward`): every batch element's `j`-th token vector is
incremented by row `j` of the table.  Fails when the token count exceeds the
table length (torch raises a broadcast error once the slice is shorter than
the token axis) or when the vector widths disagree. -/
def addPosEnc {α : Type} [Field α] (pe : List (List α)) (x : Tens α) :
    Option (Tens α) :=
  match mat3Of x with
  | some m =>
    match peAddBatch pe m with
    | some m' => some (ofMat3 m')
    | none => none
  | none => none

/-- The factor `div_term i = exp(2 i * (-log 10000 / d_model))` used by both
positional-encoding constructions in the notebook (`math.log` and `torch.log`
compute the same logarithm).  The transcendental functions are parameters so
the definition stays executable over any field; the value theorems
instantiate them with the real ones. -/
def divTerm {α : Type} [Field α] (expF : α → α) (log10000 : α) (dModel i : Nat) :
    α :=
  expF ((2 * i : Nat) * (-log10000 / (dModel : α)))

/-- Entry `(p, j)` of the positional-encoding table:
`pe[:, 0::2] = sin(position * div_term)` and
`pe[:, 1::2] = cos(position * div_term)`. -/
def posEncEntry {α : Type} [Field α] (sinF cosF expF : α → α) (log10000 : α)
    (dModel p j : Nat) : α :=
  if j % 2 = 0 then sinF ((p : α) * divTerm expF log10000 dModel (j / 2))
  else cosF ((p : α) * divTerm expF log10000 dModel (j / 2))

/-- The precomputed positional-encoding table of
`QuantumTransformer.create_positional_encoding` (first definition, length
`seq_length * n_grid`) and of the `PositionalEncoding` module (second
definition, length `max_len = 1000`): row `p` holds the encoding of token
position `p`. -/
def posEncTable {α : Type} [Field α] (sinF cosF expF : α → α) (log10000 : α)
    (fullSeqLength dModel : Nat) : List (List α) :=
  (List.range fullSeqLength).map (fun p =>
    (List.range dModel).map (fun j => posEncEntry sinF cosF expF log10000 dModel p j))

/-- The state of one `QuantumTransformer` instance: the learned affine maps
of the embedding and of the output layer, the precomputed positional table,
and the (opaque, parameter-carrying) per-sequence transform of the
transformer encoder stack. -/
structure QTModel (α : Type) where
  embeddingW : List (List α)
  embeddingB : List α
  positionalEncoding : List (List α)
  transformerEncoder : List (List α) → List (List α)
  outputW : List (List α)
  outputB : List α

/-- Constructor of the first `QuantumTransformer` definition: the positional
table is built for `seq_length * n_grid` positions. -/
def quantumTransformerInit {α : Type} [Field α] (sinF cosF expF : α → α)
    (log10000 : α) (dModel seqLength nGrid : Nat)
    (mix : List (List α) → List (List α)) (wE : List (List α)) (bE : List α)
    (wO : List (List α)) (bO : List α) : QTModel α :=
  ⟨wE, bE, posEncTable sinF cosF expF log10000 (seqLength * nGrid) dModel, mix, wO, bO⟩

/-- Constructor of the second `QuantumTransformer` definition: the positional
table comes from the `PositionalEncoding` module with its default
`max_len = 1000`. -/
def quantumTransformer2Init {α : Type} [Field α] (sinF cosF expF : α → α)
    (log10000 : α) (dModel : Nat) (mix : List (List α) → List (List α))
    (wE : List (List α)) (bE : List α) (wO : List (List α)) (bO : List α) :
    QTModel α :=
  ⟨wE, bE, posEncTable sinF cosF expF log10000 1000 dModel, mix, wO, bO⟩

/-- Forward pass of the first `QuantumTransformer` definition:
stack `(psi_real, psi_imag, potential)` on a new last axis, read off
`batch_size, seq_length, n_grid, _ = x.shape` (fails unless the stack is rank
4), flatten to `(batch, seq_length * n_grid, 3)`, embed, add the positional
slice, run the encoder — built with the default `batch_first=False`, so the
per-sequence transform runs along axis 0 — project to 2 channels and
unflatten to `(batch, seq_length, n_grid, 2)`. -/
def quantumTransformerForward {α : Type} [Field α] (m : QTModel α)
    (psiReal psiImag potential : Tens α) : Option (Tens α) :=
  match stack3 psiReal psiImag potential with
  | some x =>
    match shapeOf x with
    | [b, sl, ng, _] =>
      match reshape x [b, sl * ng, 3] with
      | some x1 =>
        let x2 := mapVecs (linearApp m.embeddingW m.embeddingB) x1
        match addPosEnc m.positionalEncoding x2 with
        | some x3 =>
          match encoderApply false m.transformerEncoder x3 with
          | some x4 =>
            let x5 := mapVecs (linearApp m.outputW m.outputB) x4
            reshape x5 [b, sl, ng, 2]
          | none => none
        | none => none
      | none => none
    | _ => none
  | none => none

/-- Forward pass of the second `QuantumTransformer` definition: reads
`batch_size, seq_length, n_grid = psi_real.shape` (fails unless `psi_real` is
rank 3), stacks and flattens as before, applies the input projection, the
`PositionalEncoding` module and the encoder — built with
`batch_first=True`, so the per-sequence transform runs along axis 1 — then
the output projection, unflattens, and returns the channel pair
`(x[..., 0], x[..., 1])`. -/
def quantumTransformer2Forward {α : Type} [Field α] (m : QTModel α)
    (psiReal psiImag potential : Tens α) : Option (Tens α × Tens α) :=
  match shapeOf psiReal with
  | [b, sl, ng] =>
    match stack3 psiReal psiImag potential with
    | some x =>
      match reshape x [b, sl * ng, 3] with
      | some x1 =>
        let x2 := mapVecs (linearApp m.embeddingW m.embeddingB) x1
        match addPosEnc m.positionalEncoding x2 with
        | some x3 =>
          match encoderApply true m.transformerEncoder x3 with
          | some x4 =>
            let x5 := mapVecs (linearApp m.outputW m.outputB) x4
            match reshape x5 [b, sl, ng, 2] with
            | some y =>
              match indexLast 0 y, indexLast 1 y with
              | some pr, some pi => some (pr, pi)
              | _, _ => none
            | none => none
          | none => none
        | none => none
      | none => none
    | none => none
  | _ => none

/-- Loop body of `propagate_wavefunction`, indexed by the current step `t`
and the remaining step count: extract `V_t = potential[t].unsqueeze(0)`, run
the model (under `torch.no_grad()`, hence purely), record the prediction and
carry it into the next step. -/
def propagateAux {α : Type}
    (model : Tens α → Tens α → Tens α → Option (Tens α × Tens α))
    (potential : Tens α) : Nat → Nat → Tens α → Tens α →
    Option (List (Tens α × Tens α))
  | _, 0, _, _ => some []
  | t, k + 1, psiReal, psiImag =>
    match index0 potential t with
    | some vRow =>
      match model psiReal psiImag (.arr [vRow]) with
      | some (r', i') =>
        match propagateAux model potential (t + 1) k r' i' with
        | some rest => some ((r', i') :: rest)
        | none => none
      | none => none
    | none => none

/-- Embedding of `propagate_wavefunction(model, initial_psi_real,
initial_psi_imag, potential, N, device)`: `model.eval()` and the device moves
have no counterpart in the pure embedding; the loop `for t in range(N)`
appends one `(Re, Im)` prediction per step. -/
def propagateWavefunction {α : Type}
    (model : Tens α → Tens α → Tens α → Option (Tens α × Tens α))
    (initialPsiReal initialPsiImag potential : Tens α) (n : Nat) :
    Option (List (Tens α × Tens α)) :=
  propagateAux model potential 0 n initialPsiReal initialPsiImag

/-- Specification-side description of an autoregressive rollout: the `k`-th
recorded pair is the model's output on the previous pair (the initial field
for `k = 0`) together with `potential[t₀ + k]` wrapped by `unsqueeze(0)`. -/
def IsRollout {α : Type}
    (model : Tens α → Tens α → Tens α → Option (Tens α × Tens α))
    (potential : Tens α) : Nat → Tens α × Tens α → List (Tens α × Tens α) → Prop
  | _, _, [] => True
  | t, cur, w :: ws =>
    (∃ vRow, index0 potential t = some vRow ∧
      model cur.1 cur.2 (.arr [vRow]) = some w) ∧
    IsRollout model potential (t + 1) w ws

/-- Embedding of `QuantumWaveDataset`: the arrays as loaded, reshaped to
`(num_trajectories, sequence_length, n_grid, features)` with
`n_grid = n_grid_3 // 3` read off `dataset_X`. -/
structure WaveDataset (α : Type) where
  numTrajectories : Nat
  sequenceLength : Nat
  nGrid : Nat
  x : Tens α
  y : Tens α

/-- Embedding of `QuantumWaveDataset.__init__`: unpacks
`num_trajectories, sequence_length, n_grid_3 = X.shape` (fails unless `X` is
rank 3), computes `n_grid = n_grid_3 // 3`, and reshapes both arrays with
`view` (which fails when the element counts disagree). -/
def quantumWaveDatasetInit {α : Type} (x y : Tens α) : Option (WaveDataset α) :=
  match shapeOf x with
  | [n, s, g3] =>
    match reshape x [n, s, g3 / 3, 3] with
    | some x' =>
      match reshape y [n, s, g3 / 3, 2] with
      | some y' => some ⟨n, s, g3 / 3, x', y'⟩
      | none => none
    | none => none
  | _ => none

/-- Embedding of `QuantumWaveDataset.__len__`. -/
def WaveDataset.len {α : Type} (d : WaveDataset α) : Nat := d.numTrajectories

/-- Embedding of `QuantumWaveDataset.__getitem__`. -/
def WaveDataset.getItem {α : Type} (d : WaveDataset α) (idx : Nat) :
    Option (Tens α × Tens α) :=
  match index0 d.x idx, index0 d.y idx with
  | some a, some b => some (a, b)
  | _, _ => none

/-- Mean-squared-error criterion `torch.nn.MSELoss()`: mean over all elements
of the squared difference. -/
def mseLoss {α : Type} [Field α] (out target : Tens α) : α :=
  let d := List.zipWith (fun a b => (a - b) ^ 2) (toFlat out) (toFlat target)
  d.sum / (d.length : α)

/-- One iteration of the inner training loop: split the batch input into its
three channels, run the model, compute the mean-squared error against the
target, and perform the `loss.backward(); optimizer.step()` parameter update,
which the embedding keeps opaque as `upd` (the gradient-descent step of the
off-the-shelf optimizer).  Exactly one update happens per batch. -/
def trainStep {α : Type} [Field α]
    (upd : QTModel α → Tens α × Tens α → QTModel α) (m : QTModel α)
    (batch : Tens α × Tens α) : Option (QTModel α × α) :=
  match indexLast 0 batch.1, indexLast 1 batch.1, indexLast 2 batch.1 with
  | some psiReal, some psiImag, some potential =>
    match quantumTransformerForward m psiReal psiImag potential with
    | some out => some (upd m batch, mseLoss out batch.2)
    | none => none
  | _, _, _ => none

/-- Inner loop of one epoch, accumulating `total_loss`. -/
def trainEpochAux {α : Type} [Field α]
    (upd : QTModel α → Tens α × Tens α → QTModel α) :
    List (Tens α × Tens α) → QTModel α → α → Option (QTModel α × α)
  | [], m, total => some (m, total)
  | b :: bs, m, total =>
    match trainStep upd m b with
    | some (m', l) => trainEpochAux upd bs m' (total + l)
    | none => none

/-- One epoch: every batch of the loader once, in order, then the reported
mean `total_loss / len(train_loader)`. -/
def trainEpoch {α : Type} [Field α]
    (upd : QTModel α → Tens α × Tens α → QTModel α)
    (batches : List (Tens α × Tens α)) (m : QTModel α) : Option (QTModel α × α) :=
  match trainEpochAux upd batches m 0 with
  | some (m', total) => some (m', total / (batches.length : α))
  | none => none

/-- The training loop `for epoch in range(num_epochs)`: runs the fixed number
of epochs, collecting each epoch's reported mean loss; there is no early
stopping and no validation split. -/
def trainingLoop {α : Type} [Field α]
    (upd : QTModel α → Tens α × Tens α → QTModel α)
    (batches : List (Tens α × Tens α)) : Nat → QTModel α →
    Option (QTModel α × List α)
  | 0, m => some (m, [])
  | e + 1, m =>
    match trainEpoch upd batches m with
    | some (m1, l) =>
      match trainingLoop upd batches e m1 with
      | some (mF, ls) => some (mF, l :: ls)
      | none => none
    | none => none

/-- Specification-side trace of one epoch: the loss of each batch, in order,
with exactly one parameter update between consecutive batches. -/
def batchLossTrace {α : Type} [Field α]
    (upd : QTModel α → Tens α × Tens α → QTModel α) :
    QTModel α → List (Tens α × Tens α) → Option (List α)
  | _, [] => some []
  | m, b :: bs =>
    match trainStep upd m b with
    | some (_, l) =>
      match batchLossTrace upd (upd m b) bs with
      | some ls => some (l :: ls)
      | none => none
    | none => none

/-- Parameters at the start of epoch `e`: the epoch map folds one update per
batch over the loader. -/
def epochParams {α : Type} (upd : QTModel α → Tens α × Tens α → QTModel α)
    (batches : List (Tens α × Tens α)) (m0 : QTModel α) (e : Nat) : QTModel α :=
  (fun m => batches.foldl upd m)^[e] m0

/-- Every step of one epoch starting from `m` succeeds (the forward pass of
every batch is defined along the updated-parameter trace). -/
def allStepsOk {α : Type} [Field α]
    (upd : QTModel α → Tens α × Tens α → QTModel α) :
    QTModel α → List (Tens α × Tens α) → Bool
  | _, [] => true
  | m, b :: bs => (trainStep upd m b).isSome && allStepsOk upd (upd m b) bs

/-- Every step of `e` epochs starting from `m` succeeds. -/
def epochsOk {α : Type} [Field α]
    (upd : QTModel α → Tens α × Tens α → QTModel α)
    (batches : List (Tens α × Tens α)) : Nat → QTModel α → Bool
  | 0, _ => true
  | e + 1, m => allStepsOk upd m batches && epochsOk upd batches e (batches.foldl upd m)

/-- An interleaved run of the two components that touch the model: training
steps (the only writers of Model Parameters, through the optimizer update
`upd`) and propagation runs (which invoke the model under `torch.no_grad()`
and write nothing). -/
inductive RunAction (α : Type) where
  | trainAct : Tens α × Tens α → RunAction α
  | propagateAct : Tens α → Tens α → Tens α → Nat → RunAction α

/-- Interprets a run over the model state: a training action performs the
optimizer's parameter update; a propagation action calls
`propagate_wavefunction` with the current parameters and records its result,
leaving the parameters untouched (its source contains no parameter
assignment — only reads under `torch.no_grad()`). -/
def runSession {α : Type} [Field α]
    (upd : QTModel α → Tens α × Tens α → QTModel α) :
    List (RunAction α) → QTModel α →
    QTModel α × List (Option (List (Tens α × Tens α)))
  | [], m => (m, [])
  | .trainAct b :: rest, m => runSession upd rest (upd m b)
  | .propagateAct r i pot n :: rest, m =>
    let out := propagateWavefunction (fun pr pi v => quantumTransformer2Forward m pr pi v) r i pot n
    let (mF, outs) := runSession upd rest m
    (mF, out :: outs)

/-- The training batches of a run, in order. -/
def trainActionsOf {α : Type} : List (RunAction α) → List (Tens α × Tens α)
  | [] => []
  | .trainAct b :: rest => b :: trainActionsOf rest
  | .propagateAct _ _ _ _ :: rest => trainActionsOf rest

/-- Rank-3 tensor of shape `(1, 1, 1)` holding one scalar. -/
def t111 {α : Type} (a : α) : Tens α := .arr [.arr [.arr [.scalar a]]]

/-- The scalar field of the concrete evaluation theorems: `ZMod 5`, whose
arithmetic the kernel evaluates structurally. -/
instance factPrimeFive : Fact (Nat.Prime 5) := ⟨by norm_num⟩

/-- A concrete cross-token transform standing in for the trained attention
stack in evaluation theorems: every position of the sequence receives the sum
of all positions (as uniform attention with an identity value map would
produce, up to the mean factor).  What matters for the theorems using it is
only that it mixes information across the positions of the sequence it is
given. -/
def sumMix : List (List (ZMod 5)) → List (List (ZMod 5)) :=
  fun s => s.map (fun _ => s.foldl (fun acc v => List.zipWith (· + ·) acc v) [0])

/-- Everywhere-zero stand-in for a transcendental function over `ℚ` in
evaluation theorems (the positional table built from it is the zero table,
additively inert). -/
def qZero : ZMod 5 → ZMod 5 := fun _ => 0

/-- Everywhere-one stand-in for `exp` over `ℚ` in evaluation theorems. -/
def qOne : ZMod 5 → ZMod 5 := fun _ => 1

/-- First `QuantumTransformer` definition instantiated concretely:
`d_model = 1`, `seq_length = n_grid = 1`, embedding picking the real part,
output projection writing it to channel 0, and `sumMix` as the encoder. -/
def cexModel1 : QTModel (ZMod 5) :=
  quantumTransformerInit qZero qZero qOne 0 1 1 1 sumMix [[1, 0, 0]] [0] [[1], [0]] [0, 0]

/-- Second `QuantumTransformer` definition with the identical weights. -/
def cexModel2 : QTModel (ZMod 5) :=
  quantumTransformer2Init qZero qZero qOne 0 1 sumMix [[1, 0, 0]] [0] [[1], [0]] [0, 0]

/-- Batch of two elements, shape `(2, 1, 1)`, both zero. -/
def batchZZ : Tens (ZMod 5) := .arr [.arr [.arr [.scalar 0]], .arr [.arr [.scalar 0]]]

/-- Batch of two elements, shape `(2, 1, 1)`: element 0 zero (agreeing with
`batchZZ`), element 1 one. -/
def batchZO : Tens (ZMod 5) := .arr [.arr [.arr [.scalar 0]], .arr [.arr [.scalar 1]]]

/-- Initial wavefunction field of shape `(1, 1)`: one grid point, as in the
docstring contract of `propagate_wavefunction`. -/
def singleStepPsi : Tens (ZMod 5) := .arr [.arr [.scalar 0]]

/-- Potential schedule of shape `(1, 2)`: one time step on a two-point grid,
disagreeing with `singleStepPsi`'s grid size. -/
def mismatchedPotential : Tens (ZMod 5) := .arr [.arr [.scalar 0, .scalar 0]]

/-- The model argument of `propagate_wavefunction` as the call site builds
it from the first `QuantumTransformer` definition: the statement
`psi_real, psi_imag = model(...)` tuple-unpacks the returned tensor along its
first axis, which succeeds exactly when that axis has length two. -/
def cexModel1Paired :
    Tens (ZMod 5) → Tens (ZMod 5) → Tens (ZMod 5) → Option (Tens (ZMod 5) × Tens (ZMod 5)) :=
  fun r i v => (quantumTransformerForward cexModel1 r i v).bind (fun t =>
    match t with
    | .arr [a, b] => some (a, b)
    | _ => none)

/-- A shape-oblivious stand-in model that echoes its input, used to exhibit
that `propagate_wavefunction` itself performs no validation: with it, the
propagator accepts mismatched shapes silently. -/
def echoModel :
    Tens (ZMod 5) → Tens (ZMod 5) → Tens (ZMod 5) → Option (Tens (ZMod 5) × Tens (ZMod 5)) :=
  fun r i _ => some (r, i)

/-- Encoder stand-in for witnesses: constant unit-width rows. -/
def constMix : List (List ℚ) → List (List ℚ) := fun s => s.map (fun _ => [0])

/-- Concrete model for witness instantiations: `d_model = 1` weights and the
`constMix` encoder. -/
def witModel : QTModel ℚ := ⟨[[1, 0, 0]], [0], [[0]], constMix, [[1], [0]], [0, 0]⟩

/-- Concrete training batch input of shape `(1, 1, 1, 3)`. -/
def witBatchX : Tens ℚ := .arr [.arr [.arr [.arr [.scalar 1, .scalar 0, .scalar 0]]]]

/-- Concrete training batch target of shape `(1, 1, 1, 2)`. -/
def witBatchY : Tens ℚ := .arr [.arr [.arr [.arr [.scalar 0, .scalar 0]]]]

/-- Concrete store array `dataset_X` of shape `(1, 1, 3)`. -/
def witStoreX : Tens ℚ := .arr [.arr [.arr [.scalar 1, .scalar 2, .scalar 3]]]

/-- Concrete store array `dataset_y` of shape `(1, 1, 2)`. -/
def witStoreY : Tens ℚ := .arr [.arr [.arr [.scalar 4, .scalar 5]]]

theorem hasShapeList_iff {α : Type} (ts : List (Tens α)) (ns : List Nat) :
    hasShapeList ts ns = true ↔ ∀ t ∈ ts, hasShape t ns = true := by
  induction ts with
  | nil => simp [hasShapeList]
  | cons t ts ih => simp [hasShapeList, ih]

theorem hasShape_scalar_iff {α : Type} (a : α) (ns : List Nat) :
    hasShape (Tens.scalar a) ns = true ↔ ns = [] := by
  cases ns <;> simp [hasShape]

theorem hasShape_arr_cons_iff {α : Type} (ts : List (Tens α)) (n : Nat) (ns : List Nat) :
    hasShape (Tens.arr ts) (n :: ns) = true ↔
      ts.length = n ∧ ∀ t ∈ ts, hasShape t ns = true := by
  simp [hasShape, hasShapeList_iff]

theorem hasShape_arr_nil {α : Type} (ts : List (Tens α)) :
    hasShape (Tens.arr ts) [] = false := by
  simp [hasShape]

theorem toFlatList_eq {α : Type} (ts : List (Tens α)) :
    toFlatList ts = (ts.map toFlat).flatten := by
  induction ts with
  | nil => simp [toFlatList]
  | cons t ts ih => simp [toFlatList, ih]

theorem toFlatList_length {α : Type} (ts : List (Tens α)) (ns : List Nat)
    (hmem : ∀ t ∈ ts, hasShape t ns = true)
    (hlen : ∀ t ∈ ts, (toFlat t).length = ns.prod) :
    (toFlatList ts).length = ts.length * ns.prod := by
  induction ts with
  | nil => simp [toFlatList]
  | cons t ts ih =>
    simp only [toFlatList, List.length_append, List.length_cons]
    rw [hlen t (by simp), ih (fun u hu => hmem u (by simp [hu]))
      (fun u hu => hlen u (by simp [hu]))]
    ring

theorem toFlat_length {α : Type} (t : Tens α) (ns : List Nat)
    (h : hasShape t ns = true) : (toFlat t).length = ns.prod := by
  induction ns generalizing t with
  | nil =>
    cases t with
    | scalar a => simp [toFlat]
    | arr ts => simp [hasShape_arr_nil] at h
  | cons n ns ih =>
    cases t with
    | scalar a => simp [hasShape_scalar_iff] at h
    | arr ts =>
      rw [hasShape_arr_cons_iff] at h
      obtain ⟨hlen, hmem⟩ := h
      subst hlen
      simp only [toFlat, List.prod_cons]
      exact toFlatList_length ts ns hmem (fun u hu => ih u (hmem u hu))

theorem buildList_toFlatList_append {α : Type} (ns : List Nat) (ts : List (Tens α))
    (hb : ∀ t ∈ ts, ∀ rest : List α, build ns (toFlat t ++ rest) = some (t, rest))
    (rest : List α) :
    build.buildList (build ns) ts.length (toFlatList ts ++ rest) = some (ts, rest) := by
  induction ts generalizing rest with
  | nil => simp [toFlatList, build.buildList]
  | cons t ts ih =>
    simp only [toFlatList, List.length_cons, build.buildList, List.append_assoc]
    rw [hb t (by simp)]
    simp only [ih (fun u hu rest' => hb u (by simp [hu]) rest')]

theorem build_toFlat_append {α : Type} (ns : List Nat) (t : Tens α)
    (h : hasShape t ns = true) (rest : List α) :
    build ns (toFlat t ++ rest) = some (t, rest) := by
  induction ns generalizing t rest with
  | nil =>
    cases t with
    | scalar a => simp [toFlat, build]
    | arr ts => simp [hasShape_arr_nil] at h
  | cons n ns ih =>
    cases t with
    | scalar a => simp [hasShape_scalar_iff] at h
    | arr ts =>
      rw [hasShape_arr_cons_iff] at h
      obtain ⟨hlen, hmem⟩ := h
      subst hlen
      simp only [toFlat, build]
      rw [buildList_toFlatList_append ns ts
        (fun u hu rest' => ih u (hmem u hu) rest') rest]

theorem build_of_length {α : Type} (ns : List Nat) (xs : List α)
    (h : xs.length = ns.prod) :
    ∃ t, build ns xs = some (t, []) ∧ hasShape t ns = true ∧ toFlat t = xs := by
  induction ns generalizing xs with
  | nil =>
    simp only [List.prod_nil] at h
    obtain ⟨a, ha⟩ : ∃ a, xs = [a] := by
      cases xs with
      | nil => simp at h
      | cons a xs => cases xs with
        | nil => exact ⟨a, rfl⟩
        | cons b ys => simp at h
    subst ha
    exact ⟨.scalar a, by simp [build], by simp [hasShape], by simp [toFlat]⟩
  | cons n ns ih =>
    simp only [List.prod_cons] at h
    suffices hsuf : ∃ ts : List (Tens α),
        build.buildList (build ns) n xs = some (ts, []) ∧ ts.length = n ∧
        (∀ t ∈ ts, hasShape t ns = true) ∧ toFlatList ts = xs by
      obtain ⟨ts, h1, h2, h3, h4⟩ := hsuf
      refine ⟨.arr ts, ?_, ?_, ?_⟩
      · simp [build, h1]
      · rw [hasShape_arr_cons_iff]; exact ⟨h2, h3⟩
      · simp [toFlat, h4]
    induction n generalizing xs with
    | zero =>
      simp only [Nat.zero_mul, List.length_eq_zero] at h
      subst h
      exact ⟨[], by simp [build.buildList], rfl, by simp, by simp [toFlatList]⟩
    | succ n ihn =>
      have hple : ns.prod ≤ xs.length := by
        rw [h, Nat.succ_mul]
        omega
      have htake : (xs.take ns.prod).length = ns.prod := by
        rw [List.length_take]
        omega
      obtain ⟨t, ht1, ht2, ht3⟩ := ih (xs.take ns.prod) htake
      have hdrop : (xs.drop ns.prod).length = n * ns.prod := by
        rw [List.length_drop, h, Nat.succ_mul]
        omega
      obtain ⟨ts, hs1, hs2, hs3, hs4⟩ := ihn (xs.drop ns.prod) hdrop
      have hx : xs = toFlat t ++ xs.drop ns.prod := by
        rw [ht3, List.take_append_drop]
      have hbx : build ns xs = some (t, xs.drop ns.prod) := by
        conv_lhs => rw [hx]
        exact build_toFlat_append ns t ht2 _
      refine ⟨t :: ts, ?_, by simp [hs2], ?_, ?_⟩
      · simp only [build.buildList, hbx, hs1]
      · intro u hu
        rcases List.mem_cons.mp hu with hc | hc
        · subst hc; exact ht2
        · exact hs3 u hc
      · rw [toFlatList, ht3, hs4, List.take_append_drop]

theorem reshape_of_hasShape {α : Type} (t : Tens α) (ns ms : List Nat)
    (h : hasShape t ns = true) (hprod : ns.prod = ms.prod) :
    ∃ t', reshape t ms = some t' ∧ hasShape t' ms = true ∧ toFlat t' = toFlat t := by
  have hlen : (toFlat t).length = ms.prod := by rw [toFlat_length t ns h, hprod]
  obtain ⟨t', h1, h2, h3⟩ := build_of_length ms (toFlat t) hlen
  exact ⟨t', by simp [reshape, h1], h2, h3⟩

theorem shapeOf_of_hasShape {α : Type} (t : Tens α) (ns : List Nat)
    (h : hasShape t ns = true) (hpos : ∀ d ∈ ns, 0 < d) : shapeOf t = ns := by
  induction ns generalizing t with
  | nil =>
    cases t with
    | scalar a => rfl
    | arr ts => simp [hasShape_arr_nil] at h
  | cons n ns ih =>
    cases t with
    | scalar a => simp [hasShape_scalar_iff] at h
    | arr ts =>
      rw [hasShape_arr_cons_iff] at h
      obtain ⟨hlen, hmem⟩ := h
      cases ts with
      | nil =>
        exfalso
        have h1 := hpos n (by simp)
        simp only [List.length_nil] at hlen
        omega
      | cons u us =>
        simp only [shapeOf]
        have h1 : us.length + 1 = n := by simpa using hlen
        rw [h1, ih u (hmem u (by simp)) (fun d hd => hpos d (by simp [hd]))]

theorem asScalars_map_scalar {α : Type} (vs : List α) :
    asScalars (vs.map Tens.scalar) = some vs := by
  induction vs with
  | nil => simp [asScalars]
  | cons v vs ih => simp [asScalars, ih]

theorem asScalars_of_rank0 {α : Type} (ts : List (Tens α))
    (h : ∀ t ∈ ts, hasShape t [] = true) :
    ∃ vs, asScalars ts = some vs ∧ vs.length = ts.length ∧ ts = vs.map Tens.scalar := by
  induction ts with
  | nil => exact ⟨[], by simp [asScalars], rfl, rfl⟩
  | cons t ts ih =>
    cases t with
    | scalar a =>
      obtain ⟨vs, h1, h2, h3⟩ := ih (fun u hu => h u (by simp [hu]))
      exact ⟨a :: vs, by simp [asScalars, h1], by simp [h2], by simp [h3]⟩
    | arr us =>
      have := h (.arr us) (by simp)
      simp [hasShape_arr_nil] at this

theorem vecOf_of_shape {α : Type} (t : Tens α) (d : Nat)
    (h : hasShape t [d] = true) :
    ∃ v : List α, vecOf t = some v ∧ v.length = d := by
  cases t with
  | scalar a => simp [hasShape_scalar_iff] at h
  | arr ts =>
    rw [hasShape_arr_cons_iff] at h
    obtain ⟨hlen, hmem⟩ := h
    obtain ⟨vs, h1, h2, _⟩ := asScalars_of_rank0 ts hmem
    exact ⟨vs, by simp [vecOf, h1], by omega⟩

theorem vecList_spec {α : Type} (ts : List (Tens α)) (d : Nat)
    (h : ∀ t ∈ ts, hasShape t [d] = true) :
    ∃ m : List (List α), vecList ts = some m ∧ m.length = ts.length ∧
      ∀ v ∈ m, v.length = d := by
  induction ts with
  | nil => exact ⟨[], rfl, rfl, by simp⟩
  | cons t ts ih =>
    obtain ⟨v, hv1, hv2⟩ := vecOf_of_shape t d (h t (by simp))
    obtain ⟨m, h1, h2, h3⟩ := ih (fun u hu => h u (by simp [hu]))
    refine ⟨v :: m, ?_, by simp [h2], ?_⟩
    · simp only [vecList, hv1, h1]
    · intro u hu
      rcases List.mem_cons.mp hu with hu | hu
      · subst hu; exact hv2
      · exact h3 u hu

theorem mat2Of_of_shape {α : Type} (t : Tens α) (n d : Nat)
    (h : hasShape t [n, d] = true) :
    ∃ m : List (List α), mat2Of t = some m ∧ m.length = n ∧
      ∀ v ∈ m, v.length = d := by
  cases t with
  | scalar a => simp [hasShape_scalar_iff] at h
  | arr ts =>
    rw [hasShape_arr_cons_iff] at h
    obtain ⟨hlen, hmem⟩ := h
    obtain ⟨m, h1, h2, h3⟩ := vecList_spec ts d hmem
    exact ⟨m, h1, by omega, h3⟩

theorem matList_spec {α : Type} (ts : List (Tens α)) (n d : Nat)
    (h : ∀ t ∈ ts, hasShape t [n, d] = true) :
    ∃ m : List (List (List α)), matList ts = some m ∧ m.length = ts.length ∧
      ∀ r ∈ m, r.length = n ∧ ∀ v ∈ r, v.length = d := by
  induction ts with
  | nil => exact ⟨[], rfl, rfl, by simp⟩
  | cons t ts ih =>
    obtain ⟨r, hr1, hr2, hr3⟩ := mat2Of_of_shape t n d (h t (by simp))
    obtain ⟨m, h1, h2, h3⟩ := ih (fun u hu => h u (by simp [hu]))
    refine ⟨r :: m, ?_, by simp [h2], ?_⟩
    · simp only [matList, hr1, h1]
    · intro u hu
      rcases List.mem_cons.mp hu with hu | hu
      · subst hu; exact ⟨hr2, hr3⟩
      · exact h3 u hu

theorem mat3Of_of_shape {α : Type} (t : Tens α) (b n d : Nat)
    (h : hasShape t [b, n, d] = true) :
    ∃ m : List (List (List α)), mat3Of t = some m ∧ m.length = b ∧
      ∀ r ∈ m, r.length = n ∧ ∀ v ∈ r, v.length = d := by
  cases t with
  | scalar a => simp [hasShape_scalar_iff] at h
  | arr ts =>
    rw [hasShape_arr_cons_iff] at h
    obtain ⟨hlen, hmem⟩ := h
    obtain ⟨m, h1, h2, h3⟩ := matList_spec ts n d hmem
    exact ⟨m, h1, by omega, h3⟩

theorem ofVec_hasShape {α : Type} (v : List α) (d : Nat) (h : v.length = d) :
    hasShape (ofVec v) [d] = true := by
  rw [ofVec, hasShape_arr_cons_iff]
  constructor
  · simp [h]
  · intro t ht
    simp only [List.mem_map] at ht
    obtain ⟨a, _, ha⟩ := ht
    subst ha
    simp [hasShape_scalar_iff]

theorem ofMat2_hasShape {α : Type} (m : List (List α)) (n d : Nat)
    (hlen : m.length = n) (hmem : ∀ v ∈ m, v.length = d) :
    hasShape (ofMat2 m) [n, d] = true := by
  rw [ofMat2, hasShape_arr_cons_iff]
  constructor
  · simp [hlen]
  · intro t ht
    simp only [List.mem_map] at ht
    obtain ⟨v, hv, hveq⟩ := ht
    subst hveq
    exact ofVec_hasShape v d (hmem v hv)

theorem ofMat3_hasShape {α : Type} (m : List (List (List α))) (b n d : Nat)
    (hlen : m.length = b) (hmem : ∀ r ∈ m, r.length = n ∧ ∀ v ∈ r, v.length = d) :
    hasShape (ofMat3 m) [b, n, d] = true := by
  rw [ofMat3, hasShape_arr_cons_iff]
  constructor
  · simp [hlen]
  · intro t ht
    simp only [List.mem_map] at ht
    obtain ⟨r, hr, hreq⟩ := ht
    subst hreq
    exact ofMat2_hasShape r n d (hmem r hr).1 (hmem r hr).2

theorem stack3List_shape {α : Type} (s : List Nat)
    (hstack : ∀ a b c : Tens α, hasShape a s = true → hasShape b s = true →
      hasShape c s = true → ∃ t, stack3 a b c = some t ∧ hasShape t (s ++ [3]) = true)
    (as bs cs : List (Tens α))
    (hab : as.length = bs.length) (hac : as.length = cs.length)
    (ha : ∀ t ∈ as, hasShape t s = true) (hb : ∀ t ∈ bs, hasShape t s = true)
    (hc : ∀ t ∈ cs, hasShape t s = true) :
    ∃ ts, stack3List as bs cs = some ts ∧ ts.length = as.length ∧
      ∀ t ∈ ts, hasShape t (s ++ [3]) = true := by
  induction as generalizing bs cs with
  | nil =>
    cases bs with
    | nil =>
      cases cs with
      | nil => exact ⟨[], rfl, rfl, by simp⟩
      | cons c cs => simp at hac
    | cons b bs => simp at hab
  | cons a as ih =>
    cases bs with
    | nil => simp at hab
    | cons b bs =>
      cases cs with
      | nil => simp at hac
      | cons c cs =>
        obtain ⟨t, ht1, ht2⟩ := hstack a b c (ha a (by simp)) (hb b (by simp))
          (hc c (by simp))
        obtain ⟨ts, hs1, hs2, hs3⟩ := ih bs cs (by simpa using hab) (by simpa using hac)
          (fun u hu => ha u (by simp [hu])) (fun u hu => hb u (by simp [hu]))
          (fun u hu => hc u (by simp [hu]))
        refine ⟨t :: ts, ?_, by simp [hs2], ?_⟩
        · simp only [stack3List, ht1, hs1]
        · intro u hu
          rcases List.mem_cons.mp hu with hu | hu
          · subst hu; exact ht2
          · exact hs3 u hu

theorem stack3_shape {α : Type} (s : List Nat) (a b c : Tens α)
    (ha : hasShape a s = true) (hb : hasShape b s = true)
    (hc : hasShape c s = true) :
    ∃ t, stack3 a b c = some t ∧ hasShape t (s ++ [3]) = true := by
  induction s generalizing a b c with
  | nil =>
    cases a with
    | arr ts => simp [hasShape_arr_nil] at ha
    | scalar x =>
      cases b with
      | arr ts => simp [hasShape_arr_nil] at hb
      | scalar y =>
        cases c with
        | arr ts => simp [hasShape_arr_nil] at hc
        | scalar z =>
          refine ⟨.arr [.scalar x, .scalar y, .scalar z], rfl, ?_⟩
          rw [List.nil_append, hasShape_arr_cons_iff]
          refine ⟨rfl, ?_⟩
          intro t ht
          simp only [List.mem_cons] at ht
          rcases ht with h | h | h | h <;> first
            | (subst h; simp [hasShape_scalar_iff])
            | simp at h
  | cons n s ih =>
    cases a with
    | scalar x => simp [hasShape_scalar_iff] at ha
    | arr as =>
      cases b with
      | scalar y => simp [hasShape_scalar_iff] at hb
      | arr bs =>
        cases c with
        | scalar z => simp [hasShape_scalar_iff] at hc
        | arr cs =>
          rw [hasShape_arr_cons_iff] at ha hb hc
          obtain ⟨ts, h1, h2, h3⟩ := stack3List_shape s ih as bs cs
            (by omega) (by omega) ha.2 hb.2 hc.2
          refine ⟨.arr ts, ?_, ?_⟩
          · simp only [stack3, h1]
          · rw [List.cons_append, hasShape_arr_cons_iff]
            exact ⟨by omega, h3⟩

theorem mapVecsList_eq_map {α : Type} (f : List α → List α) (ts : List (Tens α)) :
    mapVecsList f ts = ts.map (mapVecs f) := by
  induction ts with
  | nil => rfl
  | cons t ts ih => simp [mapVecsList, ih]

theorem mapVecs_arr_none {α : Type} (f : List α → List α) (ts : List (Tens α))
    (h : asScalars ts = none) :
    mapVecs f (.arr ts) = .arr (ts.map (mapVecs f)) := by
  cases ts with
  | nil => simp [asScalars] at h
  | cons u us => simp [mapVecs, h, mapVecsList_eq_map]

theorem mapVecs_arr_some {α : Type} (f : List α → List α) (u : Tens α)
    (us : List (Tens α)) (vs : List α) (h : asScalars (u :: us) = some vs) :
    mapVecs f (.arr (u :: us)) = .arr ((f vs).map .scalar) := by
  simp [mapVecs, h]

theorem mapVecs_shape {α : Type} (f : List α → List α) (kIn kOut : Nat)
    (hf : ∀ v : List α, v.length = kIn → (f v).length = kOut)
    (hk : 0 < kIn) (ns : List Nat) (t : Tens α)
    (h : hasShape t (ns ++ [kIn]) = true) :
    hasShape (mapVecs f t) (ns ++ [kOut]) = true := by
  induction ns generalizing t with
  | nil =>
    cases t with
    | scalar a => simp [hasShape_scalar_iff] at h
    | arr ts =>
      rw [List.nil_append, hasShape_arr_cons_iff] at h
      obtain ⟨hlen, hmem⟩ := h
      obtain ⟨vs, h1, h2, h3⟩ := asScalars_of_rank0 ts hmem
      cases ts with
      | nil => exfalso; simp at hlen; omega
      | cons u us =>
        rw [mapVecs_arr_some f u us vs h1]
        rw [List.nil_append, hasShape_arr_cons_iff]
        constructor
        · rw [List.length_map, hf vs (by omega)]
        · intro w hw
          simp only [List.mem_map] at hw
          obtain ⟨v, _, hveq⟩ := hw
          subst hveq
          simp [hasShape_scalar_iff]
  | cons n ns ih =>
    cases t with
    | scalar a => simp [hasShape_scalar_iff] at h
    | arr ts =>
      rw [List.cons_append, hasShape_arr_cons_iff] at h
      obtain ⟨hlen, hmem⟩ := h
      rw [List.cons_append]
      cases ts with
      | nil =>
        subst hlen
        rw [show mapVecs f (Tens.arr ([] : List (Tens α))) = .arr [] from rfl]
        rw [hasShape_arr_cons_iff]
        exact ⟨rfl, by simp⟩
      | cons u us =>
        have hu : hasShape u (ns ++ [kIn]) = true := hmem u (by simp)
        have hnone : asScalars (u :: us) = none := by
          cases u with
          | scalar a =>
            exfalso
            rw [hasShape_scalar_iff] at hu
            simp at hu
          | arr vs => rfl
        rw [mapVecs_arr_none f (u :: us) hnone, hasShape_arr_cons_iff]
        constructor
        · simpa using hlen
        · intro w hw
          simp only [List.mem_map] at hw
          obtain ⟨v, hv, hveq⟩ := hw
          subst hveq
          exact ih v (hmem v hv)


theorem filterMap_get?_length {α : Type} (m : List (List α)) (j : Nat)
    (h : ∀ r ∈ m, j < r.length) :
    (m.filterMap (fun r => r.get? j)).length = m.length := by
  induction m with
  | nil => simp
  | cons r m ih =>
    rw [List.filterMap_cons, List.get?_eq_get (h r (by simp))]
    simp only [List.length_cons]
    rw [ih (fun u hu => h u (by simp [hu]))]

theorem transposeN_length {α : Type} (w : Nat) (m : List (List α)) :
    (transposeN w m).length = w := by
  simp [transposeN]

theorem transposeN_mem {α : Type} (w : Nat) (m : List (List α))
    (hw : ∀ r ∈ m, r.length = w) (c : List α) (hc : c ∈ transposeN w m) :
    c.length = m.length ∧ ∀ v ∈ c, ∃ r ∈ m, v ∈ r := by
  simp only [transposeN, List.mem_map, List.mem_range] at hc
  obtain ⟨j, hj, hceq⟩ := hc
  subst hceq
  constructor
  · exact filterMap_get?_length m j (fun r hr => by rw [hw r hr]; exact hj)
  · intro v hv
    rw [List.mem_filterMap] at hv
    obtain ⟨r, hr, hget⟩ := hv
    exact ⟨r, hr, List.get?_mem hget⟩

theorem encoderApply_shape {α : Type} (bf : Bool)
    (mix : List (List α) → List (List α)) (x : Tens α) (b n d : Nat)
    (h : hasShape x [b, n, d] = true)
    (hmix : ∀ s : List (List α), (∀ v ∈ s, v.length = d) →
      (mix s).length = s.length ∧ ∀ v ∈ mix s, v.length = d) :
    ∃ y, encoderApply bf mix x = some y ∧ hasShape y [b, n, d] = true := by
  obtain ⟨m, hm1, hm2, hm3⟩ := mat3Of_of_shape x b n d h
  cases bf with
  | true =>
    refine ⟨ofMat3 (m.map mix), by simp [encoderApply, hm1], ?_⟩
    apply ofMat3_hasShape _ b n d (by simp [hm2])
    intro r hr
    simp only [List.mem_map] at hr
    obtain ⟨r0, hr0, hreq⟩ := hr
    subst hreq
    obtain ⟨hl0, hw0⟩ := hm3 r0 hr0
    obtain ⟨hml, hmw⟩ := hmix r0 hw0
    exact ⟨by rw [hml, hl0], hmw⟩
  | false =>
    cases m with
    | nil =>
      have hb0 : b = 0 := by simpa using hm2.symm
      subst hb0
      refine ⟨ofMat3 [], ?_, ofMat3_hasShape [] 0 n d rfl (by simp)⟩
      simp [encoderApply, hm1, transposeN]
    | cons r rs =>
      have hhead : ((r :: rs).headD []).length = n := (hm3 r (by simp)).1
      have hrown : ∀ row ∈ r :: rs, row.length = n := fun row hrow => (hm3 row hrow).1
      have hcols : ∀ c ∈ transposeN n (r :: rs), c.length = (r :: rs).length ∧
          ∀ v ∈ c, v.length = d := by
        intro c hc
        obtain ⟨hc1, hc2⟩ := transposeN_mem n (r :: rs) hrown c hc
        refine ⟨hc1, ?_⟩
        intro v hv
        obtain ⟨row, hrow, hvrow⟩ := hc2 v hv
        exact (hm3 row hrow).2 v hvrow
      have hmixed : ∀ c' ∈ (transposeN n (r :: rs)).map mix,
          c'.length = (r :: rs).length ∧ ∀ v ∈ c', v.length = d := by
        intro c' hc'
        simp only [List.mem_map] at hc'
        obtain ⟨c, hc, hceq⟩ := hc'
        subst hceq
        obtain ⟨hc1, hc2⟩ := hcols c hc
        obtain ⟨hml, hmw⟩ := hmix c hc2
        exact ⟨by rw [hml, hc1], hmw⟩
      refine ⟨ofMat3 (transposeN (r :: rs).length
        ((transposeN ((r :: rs).headD []).length (r :: rs)).map mix)), ?_, ?_⟩
      · simp [encoderApply, hm1]
      · rw [hhead]
        have hlenmix : ∀ c' ∈ (transposeN n (r :: rs)).map mix,
            c'.length = (r :: rs).length := fun c' hc' => (hmixed c' hc').1
        apply ofMat3_hasShape _ b n d
        · rw [transposeN_length, hm2]
        · intro row hrow
          obtain ⟨hrl, hrv⟩ := transposeN_mem (r :: rs).length _ hlenmix row hrow
          constructor
          · rw [hrl, List.length_map, transposeN_length]
          · intro v hv
            obtain ⟨c', hc', hvc'⟩ := hrv v hv
            exact (hmixed c' hc').2 v hvc'

theorem take_mem {α : Type} (l : List α) (k : Nat) (v : α) (h : v ∈ l.take k) :
    v ∈ l :=
  List.mem_of_mem_take h

theorem peAddRow_spec {α : Type} [Field α] (d : Nat) :
    ∀ (toks peR : List (List α)), (∀ v ∈ toks, v.length = d) →
      (∀ r ∈ peR, r.length = d) → toks.length ≤ peR.length →
      ∃ us, peAddRow toks peR = some us ∧ us.length = toks.length ∧
        ∀ v ∈ us, v.length = d := by
  intro toks
  induction toks with
  | nil => exact fun peR _ _ _ => ⟨[], rfl, rfl, by simp⟩
  | cons t ts ih =>
    intro peR htoks hpe hle
    cases peR with
    | nil => simp at hle
    | cons r rs =>
      have ht : t.length = d := htoks t (by simp)
      have hr : r.length = d := hpe r (by simp)
      obtain ⟨us, h1, h2, h3⟩ := ih rs (fun v hv => htoks v (by simp [hv]))
        (fun u hu => hpe u (by simp [hu])) (by simpa using hle)
      refine ⟨List.zipWith (· + ·) t r :: us, ?_, by simp [h2], ?_⟩
      · rw [peAddRow, if_pos (by rw [ht, hr]), h1]
      · intro v hv
        rcases List.mem_cons.mp hv with hv | hv
        · subst hv
          rw [List.length_zipWith, ht, hr, Nat.min_self]
        · exact h3 v hv

theorem peAddBatch_spec {α : Type} [Field α] (pe : List (List α)) (n d : Nat)
    (hlen : n ≤ pe.length) (hw : ∀ r ∈ pe, r.length = d) :
    ∀ m : List (List (List α)),
      (∀ toks ∈ m, toks.length = n ∧ ∀ v ∈ toks, v.length = d) →
      ∃ m', peAddBatch pe m = some m' ∧ m'.length = m.length ∧
        ∀ toks' ∈ m', toks'.length = n ∧ ∀ v ∈ toks', v.length = d := by
  intro m
  induction m with
  | nil => exact fun _ => ⟨[], rfl, rfl, by simp⟩
  | cons toks rest ih =>
    intro hm
    obtain ⟨htl, htw⟩ := hm toks (by simp)
    obtain ⟨us, h1, h2, h3⟩ := peAddRow_spec d toks (pe.take toks.length) htw
      (fun r hr => hw r (take_mem pe toks.length r hr))
      (by rw [List.length_take]; omega)
    obtain ⟨ms, hs1, hs2, hs3⟩ := ih (fun u hu => hm u (by simp [hu]))
    refine ⟨us :: ms, ?_, by simp [hs2], ?_⟩
    · rw [peAddBatch, if_pos (by omega), h1, hs1]
    · intro u hu
      rcases List.mem_cons.mp hu with hu | hu
      · subst hu
        exact ⟨by omega, h3⟩
      · exact hs3 u hu

theorem addPosEnc_shape {α : Type} [Field α] (pe : List (List α)) (x : Tens α)
    (b n d : Nat) (h : hasShape x [b, n, d] = true)
    (hlen : n ≤ pe.length) (hw : ∀ r ∈ pe, r.length = d) :
    ∃ y, addPosEnc pe x = some y ∧ hasShape y [b, n, d] = true := by
  obtain ⟨m, hm1, hm2, hm3⟩ := mat3Of_of_shape x b n d h
  obtain ⟨m', h1, h2, h3⟩ := peAddBatch_spec pe n d hlen hw m hm3
  refine ⟨ofMat3 m', ?_, ?_⟩
  · simp only [addPosEnc, hm1, h1]
  · exact ofMat3_hasShape m' b n d (by rw [h2, hm2]) h3

theorem linearApp_length {α : Type} [Field α] (w : List (List α)) (b : List α)
    (o : Nat) (x : List α) (hw : w.length = o) (hb : b.length = o) :
    (linearApp w b x).length = o := by
  rw [linearApp, List.length_zipWith, hw, hb, Nat.min_self]

theorem index0_shape {α : Type} (ts : List (Tens α)) (n : Nat) (ns : List Nat)
    (i : Nat) (h : hasShape (.arr ts) (n :: ns) = true) (hi : i < n) :
    ∃ t, index0 (.arr ts) i = some t ∧ hasShape t ns = true := by
  rw [hasShape_arr_cons_iff] at h
  obtain ⟨hlen, hmem⟩ := h
  have hi' : i < ts.length := by omega
  exact ⟨ts.get ⟨i, hi'⟩, by simp [index0, List.get?_eq_get hi'],
    hmem _ (ts.get_mem i hi')⟩

/-- C1: for every input triple `(psi_real, psi_imag, potential)` of identical
shape `(batch, time, grid)` (with positive dimensions) whose token count
`time * grid` does not exceed the positional-encoding table length, the
Sequence Model's forward pass succeeds and returns a tensor of shape
`(batch, time, grid, 2)` holding the predicted real and imaginary channels.
The hypotheses on the model record its construction: embedding and output
affine maps of widths `3 → dModel` and `dModel → 2`, table rows of width
`dModel`, and the encoder stack a shape-preserving sequence transform (as
`nn.TransformerEncoder` is). -/
theorem seqModelForward_output_shape {α : Type} [Field α] (m : QTModel α)
    (psiReal psiImag potential : Tens α) (b t g dModel : Nat)
    (hb : 0 < b) (ht : 0 < t) (hg : 0 < g) (hD : 0 < dModel)
    (hr : hasShape psiReal [b, t, g] = true)
    (hi : hasShape psiImag [b, t, g] = true)
    (hv : hasShape potential [b, t, g] = true)
    (hwE : m.embeddingW.length = dModel) (hbE : m.embeddingB.length = dModel)
    (hpe : t * g ≤ m.positionalEncoding.length)
    (hpew : ∀ r ∈ m.positionalEncoding, r.length = dModel)
    (hmix : ∀ s : List (List α), (∀ v ∈ s, v.length = dModel) →
      (m.transformerEncoder s).length = s.length ∧
      ∀ v ∈ m.transformerEncoder s, v.length = dModel)
    (hwO : m.outputW.length = 2) (hbO : m.outputB.length = 2) :
    ∃ y, quantumTransformerForward m psiReal psiImag potential = some y ∧
      hasShape y [b, t, g, 2] = true := by
  obtain ⟨x, hx, hxs0⟩ := stack3_shape [b, t, g] psiReal psiImag potential hr hi hv
  have hxs : hasShape x [b, t, g, 3] = true := by simpa using hxs0
  have hsh : shapeOf x = [b, t, g, 3] := by
    apply shapeOf_of_hasShape x _ hxs
    intro d hd
    simp only [List.mem_cons, List.not_mem_nil, or_false] at hd
    rcases hd with h1 | h1 | h1 | h1 <;> omega
  obtain ⟨x1, hx1, hx1s, _⟩ := reshape_of_hasShape x [b, t, g, 3] [b, t * g, 3] hxs
    (by simp only [List.prod_cons, List.prod_nil]; ring)
  have hx2s : hasShape (mapVecs (linearApp m.embeddingW m.embeddingB) x1)
      [b, t * g, dModel] = true := by
    have := mapVecs_shape (linearApp m.embeddingW m.embeddingB) 3 dModel
      (fun v _ => linearApp_length m.embeddingW m.embeddingB dModel v hwE hbE)
      (by omega) [b, t * g] x1 (by simpa using hx1s)
    simpa using this
  obtain ⟨x3, hx3, hx3s⟩ := addPosEnc_shape m.positionalEncoding _ b (t * g) dModel
    hx2s hpe hpew
  obtain ⟨x4, hx4, hx4s⟩ := encoderApply_shape false m.transformerEncoder x3
    b (t * g) dModel hx3s hmix
  have hx5s : hasShape (mapVecs (linearApp m.outputW m.outputB) x4)
      [b, t * g, 2] = true := by
    have := mapVecs_shape (linearApp m.outputW m.outputB) dModel 2
      (fun v _ => linearApp_length m.outputW m.outputB 2 v hwO hbO)
      hD [b, t * g] x4 (by simpa using hx4s)
    simpa using this
  obtain ⟨y, hy, hys, _⟩ := reshape_of_hasShape _ [b, t * g, 2] [b, t, g, 2] hx5s
    (by simp only [List.prod_cons, List.prod_nil]; ring)
  refine ⟨y, ?_, hys⟩
  simp only [quantumTransformerForward, hx, hsh, hx1, hx3, hx4, hy]

/-- Witness for C1 at a concrete instance: a `(1, 1, 1)` input triple through
a `d_model = 1` model. -/
theorem seqModelForward_output_shape_witness :
    hasShape (t111 (1 : ℚ)) [1, 1, 1] = true ∧
    ∃ y, quantumTransformerForward witModel (t111 (1 : ℚ)) (t111 0) (t111 0) = some y ∧
      hasShape y [1, 1, 1, 2] = true := by
  refine ⟨by decide, ?_⟩
  have hmix : ∀ s : List (List ℚ), (∀ v ∈ s, v.length = 1) →
      (witModel.transformerEncoder s).length = s.length ∧
      ∀ v ∈ witModel.transformerEncoder s, v.length = 1 := by
    intro s hs
    constructor
    · simp [witModel, constMix]
    · intro v hv
      simp only [witModel, constMix, List.mem_map] at hv
      obtain ⟨u, _, hu⟩ := hv
      rw [← hu]
      rfl
  exact seqModelForward_output_shape witModel (t111 1) (t111 0) (t111 0) 1 1 1 1
    (by decide) (by decide) (by decide) (by decide)
    (by decide) (by decide) (by decide)
    (by decide) (by decide)
    (by decide) (by decide)
    hmix
    (by decide) (by decide)

/-- C6: flattening the time and grid axes of a `(batch, time, grid, channels)`
field into one token axis of length `time * grid` with `view`, and
unflattening back with the same dimensions, reproduces the original field
exactly — the flatten and the unflatten of the forward pass are a true
inverse pair. -/
theorem flatten_unflatten_roundtrip {α : Type} (x : Tens α) (b t g c : Nat)
    (h : hasShape x [b, t, g, c] = true) :
    ∃ x', reshape x [b, t * g, c] = some x' ∧ hasShape x' [b, t * g, c] = true ∧
      reshape x' [b, t, g, c] = some x := by
  obtain ⟨x', h1, h2, h3⟩ := reshape_of_hasShape x [b, t, g, c] [b, t * g, c] h
    (by simp only [List.prod_cons, List.prod_nil]; ring)
  refine ⟨x', h1, h2, ?_⟩
  rw [reshape, h3]
  have hb := build_toFlat_append [b, t, g, c] x h []
  rw [List.append_nil] at hb
  rw [hb]

/-- Witness for C6 at a concrete `(1, 1, 1, 3)` field. -/
theorem flatten_unflatten_roundtrip_witness :
    hasShape witBatchX [1, 1, 1, 3] = true ∧
    ∃ x', reshape witBatchX [1, 1 * 1, 3] = some x' ∧
      hasShape x' [1, 1 * 1, 3] = true ∧ reshape x' [1, 1, 1, 3] = some witBatchX :=
  ⟨by decide, flatten_unflatten_roundtrip witBatchX 1 1 1 3 (by decide)⟩

/-- C10: for a store whose `dataset_X` has shape
`(num_trajectories, sequence_length, 3 * G)` and whose `dataset_y` has shape
`(num_trajectories, sequence_length, 2 * G)` (positive dimensions), the
Sample Loader's dataset is constructed, reports length `num_trajectories`,
computes `G` as the integer division of `dataset_X`'s last-axis width by 3,
and every item at a valid index is a pair of tensors of shapes
`(sequence_length, G, 3)` and `(sequence_length, G, 2)`. -/
theorem dataset_len_and_item_shapes {α : Type} (x y : Tens α) (n s g : Nat)
    (hn : 0 < n) (hs : 0 < s) (hg : 0 < g)
    (hx : hasShape x [n, s, 3 * g] = true) (hy : hasShape y [n, s, 2 * g] = true) :
    ∃ d, quantumWaveDatasetInit x y = some d ∧ d.len = n ∧ d.nGrid = 3 * g / 3 ∧
      d.nGrid = g ∧
      ∀ i, i < n → ∃ a b, d.getItem i = some (a, b) ∧
        hasShape a [s, g, 3] = true ∧ hasShape b [s, g, 2] = true := by
  have hdiv : 3 * g / 3 = g := by omega
  have hsh : shapeOf x = [n, s, 3 * g] := by
    apply shapeOf_of_hasShape x _ hx
    intro d hd
    simp only [List.mem_cons, List.not_mem_nil, or_false] at hd
    rcases hd with h1 | h1 | h1 <;> omega
  obtain ⟨x', hx1, hx2, _⟩ := reshape_of_hasShape x [n, s, 3 * g] [n, s, 3 * g / 3, 3]
    hx (by simp only [List.prod_cons, List.prod_nil, hdiv]; ring)
  obtain ⟨y', hy1, hy2, _⟩ := reshape_of_hasShape y [n, s, 2 * g] [n, s, 3 * g / 3, 2]
    hy (by simp only [List.prod_cons, List.prod_nil, hdiv]; ring)
  refine ⟨⟨n, s, 3 * g / 3, x', y'⟩, ?_, rfl, rfl, hdiv, ?_⟩
  · simp only [quantumWaveDatasetInit, hsh, hx1, hy1]
  · intro i hi
    rw [hdiv] at hx2 hy2
    obtain ⟨ts, hts⟩ : ∃ ts, x' = Tens.arr ts := by
      cases x' with
      | scalar a => rw [hasShape_scalar_iff] at hx2; simp at hx2
      | arr ts => exact ⟨ts, rfl⟩
    obtain ⟨us, hus⟩ : ∃ us, y' = Tens.arr us := by
      cases y' with
      | scalar a => rw [hasShape_scalar_iff] at hy2; simp at hy2
      | arr us => exact ⟨us, rfl⟩
    subst hts
    subst hus
    obtain ⟨a, ha1, ha2⟩ := index0_shape ts n [s, g, 3] i hx2 hi
    obtain ⟨b, hb1, hb2⟩ := index0_shape us n [s, g, 2] i hy2 hi
    refine ⟨a, b, ?_, ha2, hb2⟩
    simp only [WaveDataset.getItem, ha1, hb1]

/-- Witness for C10 at a concrete one-trajectory store with `G = 1`. -/
theorem dataset_len_and_item_shapes_witness :
    hasShape witStoreX [1, 1, 3 * 1] = true ∧
    ∃ d, quantumWaveDatasetInit witStoreX witStoreY = some d ∧ d.len = 1 ∧
      d.nGrid = 3 * 1 / 3 ∧ d.nGrid = 1 ∧
      ∀ i, i < 1 → ∃ a b, d.getItem i = some (a, b) ∧
        hasShape a [1, 1, 3] = true ∧ hasShape b [1, 1, 2] = true :=
  ⟨by decide, dataset_len_and_item_shapes witStoreX witStoreY 1 1 1
    (by decide) (by decide) (by decide) (by decide) (by decide)⟩

theorem propagateAux_spec {α : Type}
    (model : Tens α → Tens α → Tens α → Option (Tens α × Tens α))
    (potential : Tens α) (g nTot : Nat)
    (hpot : hasShape potential [nTot, g] = true)
    (hmodel : ∀ r i v : Tens α, hasShape r [1, g] = true →
      hasShape i [1, g] = true → hasShape v [1, g] = true →
      ∃ r' i', model r i v = some (r', i') ∧ hasShape r' [1, g] = true ∧
        hasShape i' [1, g] = true) :
    ∀ n t psiReal psiImag, t + n ≤ nTot →
      hasShape psiReal [1, g] = true → hasShape psiImag [1, g] = true →
      ∃ ws, propagateAux model potential t n psiReal psiImag = some ws ∧
        ws.length = n ∧ IsRollout model potential t (psiReal, psiImag) ws ∧
        ∀ w ∈ ws, hasShape w.1 [1, g] = true ∧ hasShape w.2 [1, g] = true := by
  intro n
  induction n with
  | zero =>
    intro t psiReal psiImag _ _ _
    exact ⟨[], rfl, rfl, trivial, by simp⟩
  | succ n ih =>
    intro t psiReal psiImag hle hr hi
    obtain ⟨ts, hts⟩ : ∃ ts, potential = Tens.arr ts := by
      cases potential with
      | scalar a => rw [hasShape_scalar_iff] at hpot; simp at hpot
      | arr ts => exact ⟨ts, rfl⟩
    subst hts
    obtain ⟨vRow, hv1, hv2⟩ := index0_shape ts nTot [g] t hpot (by omega)
    have hvarr : hasShape (Tens.arr [vRow]) [1, g] = true := by
      rw [hasShape_arr_cons_iff]
      exact ⟨rfl, by simpa using hv2⟩
    obtain ⟨r', i', hm, hr', hi'⟩ := hmodel psiReal psiImag (.arr [vRow]) hr hi hvarr
    obtain ⟨ws, hw1, hw2, hw3, hw4⟩ := ih (t + 1) r' i' (by omega) hr' hi'
    refine ⟨(r', i') :: ws, ?_, by simp [hw2], ?_, ?_⟩
    · simp only [propagateAux, hv1, hm, hw1]
    · exact ⟨⟨vRow, hv1, hm⟩, hw3⟩
    · intro w hw
      rcases List.mem_cons.mp hw with hw | hw
      · subst hw; exact ⟨hr', hi'⟩
      · exact hw4 w hw

/-- C2: for every step count `N`, initial `(Re, Im)` fields of shape
`(1, grid)` and potential schedule of at least `N` rows of that grid size,
the Autoregressive Propagator (the model invoked purely, with no parameter
update) returns exactly `N` predicted pairs; the pair at step `t` is the
model's output on the step `t-1` pair (the initial fields at `t = 0`)
together with `potential[t].unsqueeze(0)`, every predicted field again has
shape `(1, grid)`, and in particular `N = 0` yields the empty sequence and
`N = 1` a single pair.  The hypothesis on `model` records the contract the
claim presumes of it: on `(1, grid)` inputs it produces `(1, grid)`
outputs. -/
theorem propagator_rollout_spec {α : Type}
    (model : Tens α → Tens α → Tens α → Option (Tens α × Tens α))
    (potential psiReal psiImag : Tens α) (g nTot n : Nat)
    (hn : n ≤ nTot)
    (hpot : hasShape potential [nTot, g] = true)
    (hr : hasShape psiReal [1, g] = true) (hi : hasShape psiImag [1, g] = true)
    (hmodel : ∀ r i v : Tens α, hasShape r [1, g] = true →
      hasShape i [1, g] = true → hasShape v [1, g] = true →
      ∃ r' i', model r i v = some (r', i') ∧ hasShape r' [1, g] = true ∧
        hasShape i' [1, g] = true) :
    ∃ ws, propagateWavefunction model psiReal psiImag potential n = some ws ∧
      ws.length = n ∧ IsRollout model potential 0 (psiReal, psiImag) ws ∧
      ∀ w ∈ ws, hasShape w.1 [1, g] = true ∧ hasShape w.2 [1, g] = true :=
  propagateAux_spec model potential g nTot hpot hmodel n 0 psiReal psiImag
    (by omega) hr hi

/-- Witness for C2: two steps of the echo model over a two-step schedule on a
one-point grid. -/
theorem propagator_rollout_spec_witness :
    hasShape singleStepPsi [1, 1] = true ∧
    ∃ ws, propagateWavefunction echoModel singleStepPsi singleStepPsi
        (Tens.arr [Tens.arr [Tens.scalar 0], Tens.arr [Tens.scalar 0]]) 2 = some ws ∧
      ws.length = 2 ∧
      IsRollout echoModel (Tens.arr [Tens.arr [Tens.scalar 0], Tens.arr [Tens.scalar 0]])
        0 (singleStepPsi, singleStepPsi) ws ∧
      ∀ w ∈ ws, hasShape w.1 [1, 1] = true ∧ hasShape w.2 [1, 1] = true := by
  refine ⟨by decide, ?_⟩
  exact propagator_rollout_spec echoModel _ singleStepPsi singleStepPsi 1 2 2
    (by decide) (by decide) (by decide) (by decide)
    (fun r i v hr hi _ => ⟨r, i, rfl, hr, hi⟩)

/-- C8: the Model Parameters are written only by the Trainer's update step:
over any interleaving of training steps and propagation runs, the final
parameters equal the fold of the optimizer update over the training batches
alone — every propagation run (executed under `torch.no_grad()` on a model in
`eval` mode, with no parameter assignment in its source) leaves the
parameters exactly as it found them. -/
theorem params_only_trainer_writes {α : Type} [Field α]
    (upd : QTModel α → Tens α × Tens α → QTModel α)
    (acts : List (RunAction α)) (m : QTModel α) :
    (runSession upd acts m).1 = (trainActionsOf acts).foldl upd m := by
  induction acts generalizing m with
  | nil => rfl
  | cons a rest ih =>
    cases a with
    | trainAct b =>
      simp only [runSession, trainActionsOf, List.foldl_cons]
      exact ih (upd m b)
    | propagateAct r i pot n =>
      simp only [runSession, trainActionsOf]
      exact ih m

theorem trainStep_fst {α : Type} [Field α]
    (upd : QTModel α → Tens α × Tens α → QTModel α) (m : QTModel α)
    (b : Tens α × Tens α) (p : QTModel α × α)
    (h : trainStep upd m b = some p) : p.1 = upd m b := by
  rw [trainStep] at h
  split at h
  · split at h
    · have := Option.some.inj h
      rw [← this]
    · exact absurd h (by simp)
  · exact absurd h (by simp)

theorem trainEpochAux_spec {α : Type} [Field α]
    (upd : QTModel α → Tens α × Tens α → QTModel α)
    (batches : List (Tens α × Tens α)) :
    ∀ (m : QTModel α) (acc : α), allStepsOk upd m batches = true →
      ∃ bls, batchLossTrace upd m batches = some bls ∧
        bls.length = batches.length ∧
        trainEpochAux upd batches m acc = some (batches.foldl upd m, acc + bls.sum) := by
  induction batches with
  | nil =>
    intro m acc _
    refine ⟨[], rfl, rfl, ?_⟩
    simp [trainEpochAux]
  | cons b bs ih =>
    intro m acc hok
    rw [allStepsOk] at hok
    simp only [Bool.and_eq_true] at hok
    obtain ⟨hstep, hrest⟩ := hok
    obtain ⟨p, hp⟩ := Option.isSome_iff_exists.mp hstep
    have hfst := trainStep_fst upd m b p hp
    have hp' : trainStep upd m b = some (upd m b, p.2) := by
      rw [hp, ← hfst]
    obtain ⟨bls, h1, h2, h3⟩ := ih (upd m b) (acc + p.2) hrest
    refine ⟨p.2 :: bls, ?_, by simp [h2], ?_⟩
    · simp only [batchLossTrace, hp', h1]
    · simp only [trainEpochAux, hp', h3, List.foldl_cons, List.sum_cons]
      rw [add_assoc]

/-- C7: the Trainer performs exactly `E` epochs and terminates; within each
epoch it draws every batch exactly once in loader order, computes the model
output and its mean-squared error against the batch target (inside
`trainStep`), performs exactly one optimizer update per batch, and reports
the epoch's mean of the per-batch losses.  The hypothesis `epochsOk` records
that every forward pass along the run is defined; the conclusion pins the
final parameters to the `E`-fold composition of the per-epoch batch fold and
each reported loss to the sum of that epoch's per-batch losses divided by the
batch count. -/
theorem trainer_epoch_structure {α : Type} [Field α]
    (upd : QTModel α → Tens α × Tens α → QTModel α)
    (batches : List (Tens α × Tens α)) (e : Nat) (m0 : QTModel α)
    (h : epochsOk upd batches e m0 = true) :
    ∃ losses, trainingLoop upd batches e m0 =
        some (epochParams upd batches m0 e, losses) ∧
      losses.length = e ∧
      ∀ k, k < e →
        ∃ bls, batchLossTrace upd (epochParams upd batches m0 k) batches = some bls ∧
          bls.length = batches.length ∧
          losses.get? k = some (bls.sum / (batches.length : α)) := by
  induction e generalizing m0 with
  | zero =>
    refine ⟨[], ?_, rfl, ?_⟩
    · rw [trainingLoop, epochParams, Function.iterate_zero_apply]
    · intro k hk
      omega
  | succ e ih =>
    rw [epochsOk] at h
    simp only [Bool.and_eq_true] at h
    obtain ⟨hok, hrest⟩ := h
    obtain ⟨bls, hb1, hb2, hb3⟩ := trainEpochAux_spec upd batches m0 0 hok
    have hepoch : trainEpoch upd batches m0 =
        some (batches.foldl upd m0, bls.sum / (batches.length : α)) := by
      rw [trainEpoch, hb3, zero_add]
    obtain ⟨losses, hl1, hl2, hl3⟩ := ih (batches.foldl upd m0) hrest
    have hparams : ∀ k : Nat, epochParams upd batches m0 (k + 1) =
        epochParams upd batches (batches.foldl upd m0) k := by
      intro k
      rw [epochParams, epochParams, Function.iterate_succ_apply]
    refine ⟨bls.sum / (batches.length : α) :: losses, ?_, by simp [hl2], ?_⟩
    · rw [trainingLoop]
      simp only [hepoch, hl1, hparams e]
    · intro k hk
      cases k with
      | zero =>
        refine ⟨bls, ?_, hb2, by simp⟩
        rw [epochParams, Function.iterate_zero_apply]
        exact hb1
      | succ k =>
        obtain ⟨bls', hb1', hb2', hb3'⟩ := hl3 k (by omega)
        refine ⟨bls', ?_, hb2', by simpa using hb3'⟩
        rw [hparams k]
        exact hb1'

/-- Witness for C7: one epoch over a single concrete batch with the identity
update. -/
theorem trainer_epoch_structure_witness :
    epochsOk (fun m _ => m) [(witBatchX, witBatchY)] 1 witModel = true ∧
    ∃ losses, trainingLoop (fun m _ => m) [(witBatchX, witBatchY)] 1 witModel =
        some (epochParams (fun m _ => m) [(witBatchX, witBatchY)] witModel 1, losses) ∧
      losses.length = 1 ∧
      ∀ k, k < 1 →
        ∃ bls, batchLossTrace (fun m _ => m)
            (epochParams (fun m _ => m) [(witBatchX, witBatchY)] witModel k)
            [(witBatchX, witBatchY)] = some bls ∧
          bls.length = 1 ∧
          losses.get? k = some (bls.sum / ((1 : Nat) : ℚ)) :=
  ⟨by decide, trainer_epoch_structure (fun m _ => m) [(witBatchX, witBatchY)] 1
    witModel (by decide)⟩

theorem posEncTable_row {α : Type} [Field α] (sinF cosF expF : α → α)
    (log10000 : α) (L D q : Nat) (hq : q < L) :
    (posEncTable sinF cosF expF log10000 L D).getD q [] =
      (List.range D).map (posEncEntry sinF cosF expF log10000 D q) := by
  rw [posEncTable, List.getD_eq_getElem?_getD, List.getElem?_map,
    List.getElem?_range hq]
  rfl

theorem posEncTable_entry {α : Type} [Field α] (sinF cosF expF : α → α)
    (log10000 : α) (D q j : Nat) (hj : j < D) :
    ((List.range D).map (posEncEntry sinF cosF expF log10000 D q)).getD j 0 =
      posEncEntry sinF cosF expF log10000 D q j := by
  rw [List.getD_eq_getElem?_getD, List.getElem?_map, List.getElem?_range hj]
  rfl

/-- C5: in the precomputed positional-encoding table (instantiated at the
real sine, cosine, exponential and logarithm the source computes with), the
entry at position `p` and even embedding index `2 i` is
`sin(p / 10000 ^ (2 i / D))` and the entry at index `2 i + 1` is
`cos(p / 10000 ^ (2 i / D))`, where `D` is the embedding width; consequently
the row at position 0 is `(0, 1, 0, 1, ...)`. -/
theorem positional_encoding_values (L D p i : Nat) (hp : p < L)
    (hi : 2 * i + 1 < D) :
    ((posEncTable Real.sin Real.cos Real.exp (Real.log 10000) L D).getD p []).getD
        (2 * i) 0 =
      Real.sin ((p : ℝ) / (10000 : ℝ) ^ (((2 * i : Nat) : ℝ) / (D : ℝ))) ∧
    ((posEncTable Real.sin Real.cos Real.exp (Real.log 10000) L D).getD p []).getD
        (2 * i + 1) 0 =
      Real.cos ((p : ℝ) / (10000 : ℝ) ^ (((2 * i : Nat) : ℝ) / (D : ℝ))) ∧
    ((posEncTable Real.sin Real.cos Real.exp (Real.log 10000) L D).getD 0 []).getD
        (2 * i) 0 = 0 ∧
    ((posEncTable Real.sin Real.cos Real.exp (Real.log 10000) L D).getD 0 []).getD
        (2 * i + 1) 0 = 1 := by
  have hL0 : 0 < L := by omega
  have hdiv2 : 2 * i / 2 = i := by omega
  have hdiv2' : (2 * i + 1) / 2 = i := by omega
  have hdt : divTerm Real.exp (Real.log 10000) D i =
      (10000 : ℝ) ^ (-(((2 * i : Nat) : ℝ) / (D : ℝ))) := by
    rw [divTerm, Real.rpow_def_of_pos (by norm_num)]
    congr 1
    push_cast
    ring
  have hval : ∀ q : Nat, (q : ℝ) * divTerm Real.exp (Real.log 10000) D i =
      (q : ℝ) / (10000 : ℝ) ^ (((2 * i : Nat) : ℝ) / (D : ℝ)) := by
    intro q
    rw [hdt, Real.rpow_neg (by norm_num), div_eq_mul_inv, div_eq_mul_inv]
  have hsin : ∀ q : Nat,
      posEncEntry Real.sin Real.cos Real.exp (Real.log 10000) D q (2 * i) =
        Real.sin ((q : ℝ) * divTerm Real.exp (Real.log 10000) D i) := by
    intro q
    rw [posEncEntry, if_pos (by omega), hdiv2]
  have hcos : ∀ q : Nat,
      posEncEntry Real.sin Real.cos Real.exp (Real.log 10000) D q (2 * i + 1) =
        Real.cos ((q : ℝ) * divTerm Real.exp (Real.log 10000) D i) := by
    intro q
    rw [posEncEntry, if_neg (by omega), hdiv2']
  refine ⟨?_, ?_, ?_, ?_⟩
  · rw [posEncTable_row _ _ _ _ L D p hp,
      posEncTable_entry _ _ _ _ D p (2 * i) (by omega), hsin p, hval p]
  · rw [posEncTable_row _ _ _ _ L D p hp,
      posEncTable_entry _ _ _ _ D p (2 * i + 1) (by omega), hcos p, hval p]
  · rw [posEncTable_row _ _ _ _ L D 0 hL0,
      posEncTable_entry _ _ _ _ D 0 (2 * i) (by omega), hsin 0]
    rw [Nat.cast_zero, zero_mul, Real.sin_zero]
  · rw [posEncTable_row _ _ _ _ L D 0 hL0,
      posEncTable_entry _ _ _ _ D 0 (2 * i + 1) (by omega), hcos 0]
    rw [Nat.cast_zero, zero_mul, Real.cos_zero]

/-- Witness for C5 at `L = 1`, `D = 2`, position 0, pair index 0. -/
theorem positional_encoding_values_witness :
    (0 < 1 ∧ 2 * 0 + 1 < 2) ∧
    (((posEncTable Real.sin Real.cos Real.exp (Real.log 10000) 1 2).getD 0 []).getD
        (2 * 0) 0 =
      Real.sin ((0 : Nat) / (10000 : ℝ) ^ (((2 * 0 : Nat) : ℝ) / ((2 : Nat) : ℝ))) ∧
    ((posEncTable Real.sin Real.cos Real.exp (Real.log 10000) 1 2).getD 0 []).getD
        (2 * 0 + 1) 0 =
      Real.cos ((0 : Nat) / (10000 : ℝ) ^ (((2 * 0 : Nat) : ℝ) / ((2 : Nat) : ℝ))) ∧
    ((posEncTable Real.sin Real.cos Real.exp (Real.log 10000) 1 2).getD 0 []).getD
        (2 * 0) 0 = 0 ∧
    ((posEncTable Real.sin Real.cos Real.exp (Real.log 10000) 1 2).getD 0 []).getD
        (2 * 0 + 1) 0 = 1) :=
  ⟨⟨by decide, by decide⟩,
    positional_encoding_values 1 2 0 0 (by decide) (by decide)⟩

/-- C3: evaluation of the Propagator at a grid-size mismatch — initial fields
of shape `(1, 1)` against a potential schedule of shape `(1, 2)`.  The first
conjunct shows the run with the actual model fails, the failure arising
inside the model invocation (the stack of the three input fields, deep in
library code, is what rejects the mismatched grid).  The second conjunct
shows `propagate_wavefunction` itself performs no validation at its boundary:
with a model that ignores shapes, the same mismatched call is accepted
silently and returns a prediction. -/
theorem propagator_no_boundary_validation :
    propagateWavefunction cexModel1Paired singleStepPsi singleStepPsi
      mismatchedPotential 1 = none ∧
    propagateWavefunction echoModel singleStepPsi singleStepPsi
      mismatchedPotential 1 = some [(singleStepPsi, singleStepPsi)] :=
  ⟨rfl, rfl⟩

/-- C4: evaluation of the first `QuantumTransformer` definition on two
two-element batches that agree on batch element 0 (and share the imaginary
and potential fields outright).  Because the encoder stack is built with the
default `batch_first=False` while the forward pass hands it batch-first data,
the per-sequence transform runs along the batch axis: the output at batch
element 0 differs between the two runs, so one batch element's output depends
on another batch element's input, contradicting batch independence (and, by
the same axis exchange, tokens of one batch element never attend each
other). -/
theorem encoder_batch_axis_leak :
    index0 batchZZ 0 = index0 batchZO 0 ∧
    ((quantumTransformerForward cexModel1 batchZZ batchZZ batchZZ).bind
      (fun y => index0 y 0)).map toFlat = some [0, 0] ∧
    ((quantumTransformerForward cexModel1 batchZO batchZZ batchZZ).bind
      (fun y => index0 y 0)).map toFlat = some [1, 0] ∧
    ([0, 0] : List (ZMod 5)) ≠ [1, 0] :=
  ⟨rfl, by decide, by decide, by decide⟩

set_option maxRecDepth 40000 in
/-- C9 counterexample: with identical embedding, encoder-transform and
output-projection weights, the two `QuantumTransformer` definitions disagree
on an input on which both are defined: on a `(2, 1, 1)` input triple the
first definition's channel 0 is not the real field the second returns.  (The
first feeds the encoder batch-axis-first, `batch_first=False`; the second
token-axis-first, `batch_first=True`.) -/
theorem qt_defs_disagree_cex :
    ((quantumTransformerForward cexModel1 batchZO batchZZ batchZZ).bind
      (fun y => indexLast 0 y)).map toFlat = some [1, 1] ∧
    (quantumTransformer2Forward cexModel2 batchZO batchZZ batchZZ).map
      (fun p => toFlat p.1) = some [0, 1] ∧
    ([1, 1] : List (ZMod 5)) ≠ [0, 1] :=
  ⟨by decide, by decide, by decide⟩

/-- Matrix extraction of a `(1, 1, d)` tensor. -/
theorem mat3Of_single {α : Type} (v : List α) :
    mat3Of (Tens.arr [Tens.arr [Tens.arr (v.map Tens.scalar)]]) = some [[v]] := by
  simp [mat3Of, matList, mat2Of, vecList, vecOf, asScalars_map_scalar]

/-- Last-axis map over a `(1, 1, d)` tensor with a nonempty vector. -/
theorem mapVecs_single {α : Type} (f : List α → List α) (v : List α)
    (hv : v ≠ []) :
    mapVecs f (Tens.arr [Tens.arr [Tens.arr (v.map Tens.scalar)]]) =
      Tens.arr [Tens.arr [Tens.arr ((f v).map Tens.scalar)]] := by
  obtain ⟨a, as, hva⟩ : ∃ a as, v = a :: as := by
    cases v with
    | nil => exact absurd rfl hv
    | cons a as => exact ⟨a, as, rfl⟩
  subst hva
  simp [mapVecs, mapVecsList, asScalars, asScalars_map_scalar]

/-- Symbolic evaluation of the first definition's forward pass on a
`(1, 1, 1)` input triple, with the model's weights abstract. -/
theorem qtForward1_single {α : Type} [Field α] (m : QTModel α) (a b c : α)
    (ev r0 mv w1 w2 : List α) (c1 c2 : α)
    (hev : linearApp m.embeddingW m.embeddingB [a, b, c] = ev)
    (hr0 : m.positionalEncoding.take 1 = [r0])
    (hpe : 1 ≤ m.positionalEncoding.length)
    (hlen : ev.length = r0.length)
    (hmv : m.transformerEncoder [List.zipWith (· + ·) ev r0] = [mv])
    (hmv0 : mv ≠ [])
    (hwo : m.outputW = [w1, w2]) (hbo : m.outputB = [c1, c2]) :
    quantumTransformerForward m (t111 a) (t111 b) (t111 c) =
      some (.arr [.arr [.arr [.arr [.scalar (dotProd w1 mv + c1),
        .scalar (dotProd w2 mv + c2)]]]]) := by
  have h4 : mapVecs (linearApp m.embeddingW m.embeddingB)
      (Tens.arr [Tens.arr [Tens.arr [Tens.scalar a, Tens.scalar b, Tens.scalar c]]]) =
      Tens.arr [Tens.arr [Tens.arr (ev.map Tens.scalar)]] := by
    rw [← hev]
    rfl
  have h5 : addPosEnc m.positionalEncoding
      (Tens.arr [Tens.arr [Tens.arr (ev.map Tens.scalar)]]) =
      some (ofMat3 [[List.zipWith (· + ·) ev r0]]) := by
    simp only [addPosEnc, mat3Of_single]
    rw [peAddBatch, if_pos (by simpa using hpe)]
    simp only [List.length_cons, List.length_nil, Nat.zero_add, hr0]
    rw [peAddRow, if_pos hlen]
    rfl
  have h6 : encoderApply false m.transformerEncoder
      (ofMat3 [[List.zipWith (· + ·) ev r0]]) = some (ofMat3 [[mv]]) := by
    have hmat : mat3Of (ofMat3 [[List.zipWith (· + ·) ev r0]]) =
        some [[List.zipWith (· + ·) ev r0]] := mat3Of_single _
    simp only [encoderApply, hmat]
    have htr1 : transposeN ([[List.zipWith (· + ·) ev r0]].headD []).length
        [[List.zipWith (· + ·) ev r0]] = [[List.zipWith (· + ·) ev r0]] := rfl
    rw [htr1]
    rw [show ([[List.zipWith (· + ·) ev r0]] : List (List (List α))).map
        m.transformerEncoder = [m.transformerEncoder [List.zipWith (· + ·) ev r0]]
      from rfl]
    rw [hmv]
    rfl
  have h7 : mapVecs (linearApp m.outputW m.outputB) (ofMat3 [[mv]]) =
      Tens.arr [Tens.arr [Tens.arr ((linearApp m.outputW m.outputB mv).map
        Tens.scalar)]] := by
    rw [show (ofMat3 [[mv]] : Tens α) =
      Tens.arr [Tens.arr [Tens.arr (mv.map Tens.scalar)]] from rfl]
    exact mapVecs_single _ mv hmv0
  have h8 : linearApp m.outputW m.outputB mv =
      [dotProd w1 mv + c1, dotProd w2 mv + c2] := by
    rw [hwo, hbo]
    rfl
  have h9 : reshape (Tens.arr [Tens.arr [Tens.arr
      [Tens.scalar (dotProd w1 mv + c1), Tens.scalar (dotProd w2 mv + c2)]]])
      [1, 1, 1, 2] =
      some (.arr [.arr [.arr [.arr [.scalar (dotProd w1 mv + c1),
        .scalar (dotProd w2 mv + c2)]]]]) := rfl
  simp only [quantumTransformerForward,
    show stack3 (t111 a) (t111 b) (t111 c) =
      some (Tens.arr [Tens.arr [Tens.arr [Tens.arr
        [Tens.scalar a, Tens.scalar b, Tens.scalar c]]]]) from rfl,
    show shapeOf (Tens.arr [Tens.arr [Tens.arr [Tens.arr
        [Tens.scalar a, Tens.scalar b, Tens.scalar c]]]]) = [1, 1, 1, 3] from rfl,
    show reshape (Tens.arr [Tens.arr [Tens.arr [Tens.arr
        [Tens.scalar a, Tens.scalar b, Tens.scalar c]]]]) [1, 1 * 1, 3] =
      some (.arr [.arr [.arr [.scalar a, .scalar b, .scalar c]]]) from rfl,
    h4, h5, h6, h7, h8, List.map_cons, List.map_nil, h9]

/-- Symbolic evaluation of the second definition's forward pass on a
`(1, 1, 1)` input triple, with the model's weights abstract. -/
theorem qtForward2_single {α : Type} [Field α] (m : QTModel α) (a b c : α)
    (ev r0 mv w1 w2 : List α) (c1 c2 : α)
    (hev : linearApp m.embeddingW m.embeddingB [a, b, c] = ev)
    (hr0 : m.positionalEncoding.take 1 = [r0])
    (hpe : 1 ≤ m.positionalEncoding.length)
    (hlen : ev.length = r0.length)
    (hmv : m.transformerEncoder [List.zipWith (· + ·) ev r0] = [mv])
    (hmv0 : mv ≠ [])
    (hwo : m.outputW = [w1, w2]) (hbo : m.outputB = [c1, c2]) :
    quantumTransformer2Forward m (t111 a) (t111 b) (t111 c) =
      some (.arr [.arr [.arr [.scalar (dotProd w1 mv + c1)]]],
        .arr [.arr [.arr [.scalar (dotProd w2 mv + c2)]]]) := by
  have h4 : mapVecs (linearApp m.embeddingW m.embeddingB)
      (Tens.arr [Tens.arr [Tens.arr [Tens.scalar a, Tens.scalar b, Tens.scalar c]]]) =
      Tens.arr [Tens.arr [Tens.arr (ev.map Tens.scalar)]] := by
    rw [← hev]
    rfl
  have h5 : addPosEnc m.positionalEncoding
      (Tens.arr [Tens.arr [Tens.arr (ev.map Tens.scalar)]]) =
      some (ofMat3 [[List.zipWith (· + ·) ev r0]]) := by
    simp only [addPosEnc, mat3Of_single]
    rw [peAddBatch, if_pos (by simpa using hpe)]
    simp only [List.length_cons, List.length_nil, Nat.zero_add, hr0]
    rw [peAddRow, if_pos hlen]
    rfl
  have h6 : encoderApply true m.transformerEncoder
      (ofMat3 [[List.zipWith (· + ·) ev r0]]) = some (ofMat3 [[mv]]) := by
    have hmat : mat3Of (ofMat3 [[List.zipWith (· + ·) ev r0]]) =
        some [[List.zipWith (· + ·) ev r0]] := mat3Of_single _
    simp only [encoderApply, hmat]
    rw [show ([[List.zipWith (· + ·) ev r0]] : List (List (List α))).map
        m.transformerEncoder = [m.transformerEncoder [List.zipWith (· + ·) ev r0]]
      from rfl]
    rw [hmv]
    rfl
  have h7 : mapVecs (linearApp m.outputW m.outputB) (ofMat3 [[mv]]) =
      Tens.arr [Tens.arr [Tens.arr ((linearApp m.outputW m.outputB mv).map
        Tens.scalar)]] := by
    rw [show (ofMat3 [[mv]] : Tens α) =
      Tens.arr [Tens.arr [Tens.arr (mv.map Tens.scalar)]] from rfl]
    exact mapVecs_single _ mv hmv0
  have h8 : linearApp m.outputW m.outputB mv =
      [dotProd w1 mv + c1, dotProd w2 mv + c2] := by
    rw [hwo, hbo]
    rfl
  simp only [quantumTransformer2Forward,
    show shapeOf (t111 a : Tens α) = [1, 1, 1] from rfl,
    show stack3 (t111 a) (t111 b) (t111 c) =
      some (Tens.arr [Tens.arr [Tens.arr [Tens.arr
        [Tens.scalar a, Tens.scalar b, Tens.scalar c]]]]) from rfl,
    show reshape (Tens.arr [Tens.arr [Tens.arr [Tens.arr
        [Tens.scalar a, Tens.scalar b, Tens.scalar c]]]]) [1, 1 * 1, 3] =
      some (.arr [.arr [.arr [.scalar a, .scalar b, .scalar c]]]) from rfl,
    h4, h5, h6, h7, h8, List.map_cons, List.map_nil,
    show reshape (Tens.arr [Tens.arr [Tens.arr [Tens.scalar (dotProd w1 mv + c1),
        Tens.scalar (dotProd w2 mv + c2)]]]) [1, 1, 1, 2] =
      some (Tens.arr [Tens.arr [Tens.arr [Tens.arr [Tens.scalar (dotProd w1 mv + c1),
        Tens.scalar (dotProd w2 mv + c2)]]]]) from rfl,
    show indexLast 0 (Tens.arr [Tens.arr [Tens.arr [Tens.arr
        [Tens.scalar (dotProd w1 mv + c1), Tens.scalar (dotProd w2 mv + c2)]]]]) =
      some (Tens.arr [Tens.arr [Tens.arr [Tens.scalar (dotProd w1 mv + c1)]]])
      from rfl,
    show indexLast 1 (Tens.arr [Tens.arr [Tens.arr [Tens.arr
        [Tens.scalar (dotProd w1 mv + c1), Tens.scalar (dotProd w2 mv + c2)]]]]) =
      some (Tens.arr [Tens.arr [Tens.arr [Tens.scalar (dotProd w2 mv + c2)]]])
      from rfl]

/-- The table has one row per position. -/
theorem posEncTable_length {α : Type} [Field α] (sinF cosF expF : α → α)
    (log10000 : α) (L D : Nat) :
    (posEncTable sinF cosF expF log10000 L D).length = L := by
  simp [posEncTable]

/-- The first row of the table does not depend on the table length. -/
theorem posEncTable_take_one {α : Type} [Field α] (sinF cosF expF : α → α)
    (log10000 : α) (L D : Nat) (hL : 0 < L) :
    (posEncTable sinF cosF expF log10000 L D).take 1 =
      [(List.range D).map (posEncEntry sinF cosF expF log10000 D 0)] := by
  cases L with
  | zero => omega
  | succ K =>
    rw [posEncTable, List.range_succ_eq_map]
    simp

set_option maxRecDepth 10000 in
/-- C9 (amended): up to output packing, the two `QuantumTransformer`
definitions agree — given identical embedding, encoder-transform and output
projection weights — in the degenerate single-token case (`batch = 1`,
`seq_length = n_grid = 1`, the only case in which the axis the encoder runs
over cannot matter): the first definition's output channels 0 and 1 equal
the real and imaginary fields the second returns.  In general the two
definitions differ (see the counterexample): the first hands the encoder its
data batch-axis-first while the layer is built with `batch_first=False`, the
second uses `batch_first=True`. -/
theorem qt_defs_agree_single_token {α : Type} [Field α]
    (sinF cosF expF : α → α) (log10000 : α) (dModel : Nat) (hD : 0 < dModel)
    (mix : List (List α) → List (List α))
    (wE : List (List α)) (bE : List α) (wO : List (List α)) (bO : List α)
    (hwE : wE.length = dModel) (hbE : bE.length = dModel)
    (hwO : wO.length = 2) (hbO : bO.length = 2)
    (hmix : ∀ s : List (List α), (∀ v ∈ s, v.length = dModel) →
      (mix s).length = s.length ∧ ∀ v ∈ mix s, v.length = dModel)
    (a b c : α) :
    ∃ y pr pi,
      quantumTransformerForward
        (quantumTransformerInit sinF cosF expF log10000 dModel 1 1 mix wE bE wO bO)
        (t111 a) (t111 b) (t111 c) = some y ∧
      quantumTransformer2Forward
        (quantumTransformer2Init sinF cosF expF log10000 dModel mix wE bE wO bO)
        (t111 a) (t111 b) (t111 c) = some (pr, pi) ∧
      indexLast 0 y = some pr ∧ indexLast 1 y = some pi := by
  set ev := linearApp wE bE [a, b, c] with hev
  set r0 := (List.range dModel).map (posEncEntry sinF cosF expF log10000 dModel 0)
    with hr0def
  have hevlen : ev.length = dModel := linearApp_length wE bE dModel _ hwE hbE
  have hr0len : r0.length = dModel := by simp [hr0def]
  have hlen : ev.length = r0.length := by rw [hevlen, hr0len]
  have hvwidth : ∀ v ∈ [List.zipWith (· + ·) ev r0], v.length = dModel := by
    intro v hv
    rcases List.mem_cons.mp hv with hv | hv
    · subst hv
      rw [List.length_zipWith, hevlen, hr0len, Nat.min_self]
    · simp at hv
  obtain ⟨hmlen, hmw⟩ := hmix [List.zipWith (· + ·) ev r0] hvwidth
  obtain ⟨mv, hmveq⟩ := List.length_eq_one.mp (by simpa using hmlen)
  have hmv0 : mv ≠ [] := by
    have : mv ∈ mix [List.zipWith (· + ·) ev r0] := by simp [hmveq]
    have hl := hmw mv this
    intro hc
    subst hc
    simp at hl
    omega
  obtain ⟨w1, w2, hwo⟩ : ∃ u v, wO = [u, v] := by
    match wO, hwO with
    | [u, v], _ => exact ⟨u, v, rfl⟩
  obtain ⟨c1, c2, hbo⟩ : ∃ u v, bO = [u, v] := by
    match bO, hbO with
    | [u, v], _ => exact ⟨u, v, rfl⟩
  have h1 := qtForward1_single
    (quantumTransformerInit sinF cosF expF log10000 dModel 1 1 mix wE bE wO bO)
    a b c ev r0 mv w1 w2 c1 c2 rfl
    (by
      show (posEncTable sinF cosF expF log10000 (1 * 1) dModel).take 1 = [r0]
      rw [posEncTable_take_one sinF cosF expF log10000 (1 * 1) dModel (by omega)])
    (by
      show 1 ≤ (posEncTable sinF cosF expF log10000 (1 * 1) dModel).length
      rw [posEncTable_length])
    hlen hmveq hmv0 hwo hbo
  have h2 := qtForward2_single
    (quantumTransformer2Init sinF cosF expF log10000 dModel mix wE bE wO bO)
    a b c ev r0 mv w1 w2 c1 c2 rfl
    (by
      show (posEncTable sinF cosF expF log10000 1000 dModel).take 1 = [r0]
      rw [posEncTable_take_one sinF cosF expF log10000 1000 dModel (by omega)])
    (by
      show 1 ≤ (posEncTable sinF cosF expF log10000 1000 dModel).length
      rw [posEncTable_length]
      omega)
    hlen hmveq hmv0 hwo hbo
  exact ⟨_, _, _, h1, h2, rfl, rfl⟩

/-- Witness for the amended C9 at a concrete `d_model = 1` weight set over
`ℚ`. -/
theorem qt_defs_agree_single_token_witness :
    ([[1, 0, 0]] : List (List ℚ)).length = 1 ∧
    ∃ y pr pi,
      quantumTransformerForward
        (quantumTransformerInit id id id 1 1 1 1 constMix [[1, 0, 0]] [0]
          [[1], [0]] [0, 0])
        (t111 (0 : ℚ)) (t111 0) (t111 0) = some y ∧
      quantumTransformer2Forward
        (quantumTransformer2Init id id id 1 1 constMix [[1, 0, 0]] [0]
          [[1], [0]] [0, 0])
        (t111 (0 : ℚ)) (t111 0) (t111 0) = some (pr, pi) ∧
      indexLast 0 y = some pr ∧ indexLast 1 y = some pi := by
  have hmix : ∀ s : List (List ℚ), (∀ v ∈ s, v.length = 1) →
      (constMix s).length = s.length ∧ ∀ v ∈ constMix s, v.length = 1 := by
    intro s hs
    constructor
    · simp [constMix]
    · intro v hv
      simp only [constMix, List.mem_map] at hv
      obtain ⟨u, _, hu⟩ := hv
      rw [← hu]
      rfl
  exact ⟨by decide,
    qt_defs_agree_single_token id id id 1 1 (by decide) constMix
      [[1, 0, 0]] [0] [[1], [0]] [0, 0]
      (by decide) (by decide) (by decide) (by decide) hmix 0 0 0⟩
